import Mathlib

/-!
Verification of the gron core (repository aarthi184/gron).

The repository sources under verification are gron.go (the Gron, GronStream
and Ungron actions, option bitfields and exit codes) and statements_test.go.
The statement/walker/merger module (statements.go / ungron.go) is absent from
the sources; its operations are modelled from the specification, as marked on
each definition.
-/

namespace Gron

/-- Modelled from the spec: the JSON value data model (spec §3), for the absent
statements.go. Numbers carry their literal text, preserving the
integer-vs-fractional distinction required for round-trip rendering (§3, §9). -/
inductive Json where
  | null
  | bool (b : Bool)
  | num (lit : String)
  | str (s : String)
  | arr (xs : List Json)
  | obj (kvs : List (String × Json))

/-- Modelled from the spec: the closed token-kind enumeration (spec §3), for the
absent statements.go. Key and literal tokens carry their raw (unescaped)
payload; rendering adds quoting. -/
inductive Tok where
  | bare (s : String)
  | quotedKey (s : String)
  | numKey (i : Nat)
  | lbrace
  | rbrace
  | dot
  | equals
  | semi
  | emptyArr
  | emptyObj
  | litStr (s : String)
  | litNum (lit : String)
  | litTrue
  | litFalse
  | litNull
deriving DecidableEq

/-- A statement is an ordered sequence of tokens (spec §3), matching the
statement type used by gron.go (e.g. the literals built in GronStream). -/
abbrev Stmt := List Tok

/-- Modelled from the spec: first character of a bare identifier is a letter or
underscore (spec §4.1 bare-identifier rule), for the absent statements.go. -/
def validFirstChar (c : Char) : Bool := c.isAlpha || c = '_'

/-- Modelled from the spec: subsequent characters of a bare identifier are
letters, digits or underscores (spec §4.1), for the absent statements.go. -/
def validSecondaryChar (c : Char) : Bool := c.isAlpha || c.isDigit || c = '_'

/-- Modelled from the spec: keyMustBeQuoted from the absent statements.go
(tested by statements_test.go): a key may be rendered bare iff it is non-empty,
starts with a letter or underscore and continues with letters, digits or
underscores (spec §4.1); every other key must be quoted. -/
def keyMustBeQuoted (s : String) : Bool :=
  match s.data with
  | [] => true
  | c :: cs => !(validFirstChar c && cs.all validSecondaryChar)

/-- Hexadecimal digit characters for control-character escapes. -/
def hexDigitChar (n : Nat) : Char :=
  if n < 10 then Char.ofNat (48 + n) else Char.ofNat (97 + (n - 10))

/-- Modelled from the spec: standard JSON string escaping of one character
(spec §4.1, §4.2), for the absent statements.go. -/
def escapeChar (c : Char) : List Char :=
  if c = '"' then ['\\', '"']
  else if c = '\\' then ['\\', '\\']
  else if c = '\n' then ['\\', 'n']
  else if c = '\t' then ['\\', 't']
  else if c = '\r' then ['\\', 'r']
  else if c.toNat < 32 then
    ['\\', 'u', '0', '0', hexDigitChar (c.toNat / 16), hexDigitChar (c.toNat % 16)]
  else [c]

/-- Modelled from the spec: render a string as a JSON string literal with
standard escaping (spec §4.1), for the absent statements.go. -/
def quoteString (s : String) : String :=
  "\"" ++ String.mk (s.data.flatMap escapeChar) ++ "\""

/-- Modelled from the spec: the text a renderer produces for one token
(spec §6 statement text grammar), for the absent statements.go. -/
def Tok.render : Tok → String
  | .bare s => s
  | .quotedKey s => quoteString s
  | .numKey i => toString i
  | .lbrace => "["
  | .rbrace => "]"
  | .dot => "."
  | .equals => " = "
  | .semi => ";"
  | .emptyArr => "[]"
  | .emptyObj => "\x7b\x7d"
  | .litStr s => quoteString s
  | .litNum lit => lit
  | .litTrue => "true"
  | .litFalse => "false"
  | .litNull => "null"

/-- The rendered text form of a statement (spec §4.5, §6): the concatenation
of its tokens' rendered texts. -/
def renderStmt : Stmt → String
  | [] => ""
  | t :: rest => t.render ++ renderStmt rest

/-- Modelled from the spec: the value token emitted for a node by the Value
Walker: containers get the EmptyArray/EmptyObject marker, leaves their literal
(spec §4.1), for the absent statements.go. -/
def valTok : Json → Tok
  | .null => .litNull
  | .bool true => .litTrue
  | .bool false => .litFalse
  | .num lit => .litNum lit
  | .str s => .litStr s
  | .arr _ => .emptyArr
  | .obj _ => .emptyObj

/-- Modelled from the spec: the path-continuation tokens for an object key:
Dot+Bare when the key is a valid bare identifier, LBrace+QuotedKey+RBrace
otherwise (spec §4.1), for the absent statements.go. -/
def keyToks (k : String) : List Tok :=
  if keyMustBeQuoted k then [.lbrace, .quotedKey k, .rbrace] else [.dot, .bare k]

/-- Modelled from the spec: the path-continuation tokens for an array index
(spec §4.1), for the absent statements.go. -/
def idxToks (i : Nat) : List Tok := [.lbrace, .numKey i, .rbrace]

mutual
/-- Modelled from the spec: the Value Walker (spec §4.1) behind
statementsFromJSON of the absent statements.go, on an already-decoded value:
depth-first pre-order, emitting the node's own statement before its children,
extending the given token prefix by one segment per child. -/
def statementsFromJSON (pfx : Stmt) (v : Json) : List Stmt :=
  (pfx ++ [.equals, valTok v, .semi]) ::
  (match v with
   | .arr xs => stmtsArr pfx 0 xs
   | .obj kvs => stmtsObj pfx kvs
   | _ => [])

/-- Walker helper: statements for array elements from index i on (spec §4.1). -/
def stmtsArr (pfx : Stmt) (i : Nat) : List Json → List Stmt
  | [] => []
  | x :: xs => statementsFromJSON (pfx ++ idxToks i) x ++ stmtsArr pfx (i + 1) xs

/-- Walker helper: statements for object fields in native order (spec §4.1). -/
def stmtsObj (pfx : Stmt) : List (String × Json) → List Stmt
  | [] => []
  | (k, w) :: kvs => statementsFromJSON (pfx ++ keyToks k) w ++ stmtsObj pfx kvs
end

/-- One step of a statement's key/index chain (spec glossary: path segment). -/
inductive Seg where
  | key (k : String)
  | idx (i : Nat)
deriving DecidableEq

/-- A path is the segment chain of one statement (spec §3). -/
abbrev Path := List Seg

/-- The value assigned for a node by its own statement: containers become the
empty container, leaves stay themselves (spec §4.1). -/
def headVal : Json → Json
  | .arr _ => .arr []
  | .obj _ => .obj []
  | v => v

mutual
/-- Abstract path/value view of the Value Walker (spec §4.1): the pre-order
list of (relative path, assigned value) pairs for every addressable node. -/
def walkPairs : Json → List (Path × Json)
  | .arr xs => ([], .arr []) :: walkA 0 xs
  | .obj kvs => ([], .obj []) :: walkO kvs
  | v => [([], v)]

/-- Pair-walker helper for array elements from index i on. -/
def walkA (i : Nat) : List Json → List (Path × Json)
  | [] => []
  | x :: xs => (walkPairs x).map (fun pa => (.idx i :: pa.1, pa.2)) ++ walkA (i + 1) xs

/-- Pair-walker helper for object fields in native order. -/
def walkO : List (String × Json) → List (Path × Json)
  | [] => []
  | (k, w) :: kvs => (walkPairs w).map (fun pa => (.key k :: pa.1, pa.2)) ++ walkO kvs
end

/-- The paths addressed by the walker on a value. -/
def pathsOf (v : Json) : List Path := (walkPairs v).map Prod.fst

/-- Tokens rendering a path as statement path segments (spec §4.1). -/
def pathToks : Path → List Tok
  | [] => []
  | .key k :: p => keyToks k ++ pathToks p
  | .idx i :: p => idxToks i ++ pathToks p

/-- The statement for one (path, value) pair under a bare root name. -/
def stmtOfPair (root : String) (pa : Path × Json) : Stmt :=
  .bare root :: (pathToks pa.1 ++ [.equals, valTok pa.2, .semi])

/-- Boolean lexicographic less-or-equal on character lists; the order that
lexicographic comparison of rendered statement text induces (spec §4.5). -/
def lexLe : List Char → List Char → Bool
  | [], _ => true
  | _ :: _, [] => false
  | a :: as, b :: bs => if a < b then true else if b < a then false else lexLe as bs

/-- Modelled from the spec: the Statement Sorter's order (spec §4.5), for the
absent statements.go: lexicographic comparison of the rendered text form. -/
def stmtLe (a b : Stmt) : Bool := lexLe (renderStmt a).data (renderStmt b).data

/-- Modelled from the spec: the Statement Sorter (spec §4.5), for the absent
statements.go: a stable sort by the rendered text form, as invoked by
sort.Sort(ss) in gron.go. -/
def sortStatements (ss : List Stmt) : List Stmt := ss.mergeSort stmtLe

/-- Option bitfield OptMonochrome from gron.go. -/
def OptMonochrome : Nat := 1

/-- Option bitfield OptNoSort from gron.go. -/
def OptNoSort : Nat := 2

/-- Option bitfield OptJSON from gron.go. -/
def OptJSON : Nat := 4

/-- Exit code ExitOK from gron.go. -/
def ExitOK : Nat := 0

/-- Exit code ExitOpenFile from gron.go. -/
def ExitOpenFile : Nat := 1

/-- Exit code ExitReadInput from gron.go. -/
def ExitReadInput : Nat := 2

/-- Exit code ExitFormStatements from gron.go. -/
def ExitFormStatements : Nat := 3

/-- Exit code ExitFetchURL from gron.go. -/
def ExitFetchURL : Nat := 4

/-- Exit code ExitParseStatements from gron.go. -/
def ExitParseStatements : Nat := 5

/-- Exit code ExitJSONEncode from gron.go. -/
def ExitJSONEncode : Nat := 6

/-- Models the Gron action (gron.go lines 50-86) at the statement level, for an
already-decoded input document: walk from the root statement json, then sort
unless OptNoSort is set. Rendering and color are out of scope (spec §1). -/
def gronStatements (v : Json) (opts : Nat) : List Stmt :=
  let ss := statementsFromJSON [.bare "json"] v
  if opts &&& OptNoSort == 0 then sortStatements ss else ss

/-- Models the makePrefix helper inside GronStream (gron.go lines 106-113):
the fixed token prefix json[index] for one input line. -/
def streamLineToks (index : Nat) : Stmt :=
  [.bare "json", .lbrace, .numKey index, .rbrace]

/-- Models the top statement of GronStream (gron.go lines 117-122):
the statement establishing that the top level is an array. -/
def streamTopStmt : Stmt := [.bare "json", .equals, .emptyArr, .semi]

/-- Models GronStream's per-line statement production (gron.go lines 138-164):
the line's document is walked under the extra fixed prefix json[i], then
sorted unless OptNoSort is set. -/
def streamLineStatements (opts : Nat) (i : Nat) (v : Json) : List Stmt :=
  let ss := statementsFromJSON (streamLineToks i) v
  if opts &&& OptNoSort == 0 then sortStatements ss else ss

/-- Models the statements GronStream emits (gron.go lines 91-175) when every
line scans and decodes successfully: the top statement, then each line's
statements in line order. -/
def gronStreamStatements (lines : List Json) (opts : Nat) : List Stmt :=
  streamTopStmt :: (lines.enum.flatMap fun iv => streamLineStatements opts iv.1 iv.2)

/-- Modelled from the spec: the Tree Merger's error taxonomy (spec §7):
TypeConflict for array/object/scalar shape conflicts, malformed for statement
sequences that are not grammatical. -/
inductive UngronError where
  | typeConflict
  | malformed
deriving DecidableEq

/-- Modelled from the spec: a node usable as an Object is an existing Object
or a Null/missing node which becomes one (spec §4.4 conflict rule). -/
def coerceObj : Json → Option (List (String × Json))
  | .null => some []
  | .obj kvs => some kvs
  | _ => none

/-- Modelled from the spec: a node usable as an Array is an existing Array or
a Null/missing node which becomes one (spec §4.4 conflict rule). -/
def coerceArr : Json → Option (List Json)
  | .null => some []
  | .arr xs => some xs
  | _ => none

/-- Modelled from the spec: extend an array with Null placeholders up to
length n (spec §4.4 gap-filling). -/
def padTo (n : Nat) (xs : List Json) : List Json :=
  xs ++ List.replicate (n - xs.length) .null

/-- Modelled from the spec: set or overwrite the named entry of an object
(spec §4.4): an existing key is updated in place, a new key appended. -/
def setKV : List (String × Json) → String → Json → List (String × Json)
  | [], k, w => [(k, w)]
  | (k', w') :: rest, k, w =>
    if k' = k then (k, w) :: rest else (k', w') :: setKV rest k w

/-- Look a key up in an object, treating a missing entry as Null/missing
(spec §4.4: intermediate containers are created on demand). -/
def lookupD (kvs : List (String × Json)) (k : String)  : Json :=
  (kvs.lookup k).getD .null

/-- Modelled from the spec: decode a terminal value token into the Value it
assigns (spec §4.4). -/
def tokValue : Tok → Option Json
  | .litNull => some .null
  | .litTrue => some (.bool true)
  | .litFalse => some (.bool false)
  | .litNum lit => some (.num lit)
  | .litStr s => some (.str s)
  | .emptyArr => some (.arr [])
  | .emptyObj => some (.obj [])
  | _ => none

/-- A non-null scalar value: a boolean, number or string — the shapes the
merger's conflict rule (spec §4.4) refuses to coerce into a container (Null,
by contrast, upgrades into a fresh container on demand). -/
def isScalar : Json → Bool
  | .bool _ => true
  | .num _ => true
  | .str _ => true
  | _ => false

/-- Modelled from the spec: the Tree Merger's per-statement walk (spec §4.4),
for the absent ungron code behind statements.toInterface: consume the
remaining tokens of one statement, descending through the tree, creating and
extending containers on demand, and assign the terminal value. A Dot+Bare or
LBrace+QuotedKey+RBrace segment requires an Object (spec §4.4), a
LBrace+NumericKey+RBrace segment an Array extended with Null placeholders up
to the addressed index. -/
def ungronTokens : Json → List Tok → Except UngronError Json
  | _, [.equals, vt, .semi] =>
    (match tokValue vt with
     | some a => .ok a
     | none => .error .malformed)
  | t, .dot :: .bare k :: rest =>
    (match coerceObj t with
     | none => .error .typeConflict
     | some kvs =>
       (ungronTokens (lookupD kvs k) rest).map fun w => .obj (setKV kvs k w))
  | t, .lbrace :: .quotedKey k :: .rbrace :: rest =>
    (match coerceObj t with
     | none => .error .typeConflict
     | some kvs =>
       (ungronTokens (lookupD kvs k) rest).map fun w => .obj (setKV kvs k w))
  | t, .lbrace :: .numKey i :: .rbrace :: rest =>
    (match coerceArr t with
     | none => .error .typeConflict
     | some xs =>
       (ungronTokens ((padTo (i + 1) xs).getD i .null) rest).map
         fun w => .arr ((padTo (i + 1) xs).set i w))
  | _, _ => .error .malformed

/-- Modelled from the spec: merge one parsed statement into the tree
(spec §4.4): the statement begins with the Bare root token, which addresses an
entry of the (implicit) top-level object. -/
def mergeStmt (t : Json) (s : Stmt) : Except UngronError Json :=
  match s with
  | .bare k :: rest =>
    (match coerceObj t with
     | none => .error .typeConflict
     | some kvs =>
       (ungronTokens (lookupD kvs k) rest).map fun w => .obj (setKV kvs k w))
  | _ => .error .malformed

/-- Modelled from the spec: the Tree Merger (spec §4.4) behind
statements.toInterface of the absent source: fold the statement collection
left to right into one value, starting from the missing/Null tree, aborting on
the first error. -/
def merge (ss : List Stmt) : Except UngronError Json :=
  ss.foldlM mergeStmt .null

/-- Models the top-level collapsing in Ungron (gron.go lines 209-217): if the
merged value is an object with exactly one key and that key is json, the value
under that key becomes the top-level result; otherwise the merged value is
kept unchanged. -/
def collapse (v : Json) : Json :=
  match v with
  | .obj [(k, w)] => if k = "json" then w else v
  | _ => v

/-- Models Ungron from its parsed statements on (gron.go lines 203-217): a
merge error aborts with ExitParseStatements and no JSON value is emitted; on
success the merged value is collapsed and emitted with ExitOK. -/
def ungronMerge (ss : List Stmt) : Nat × Option Json :=
  match merge ss with
  | .error _ => (ExitParseStatements, none)
  | .ok m => (ExitOK, some (collapse m))

/-- Models Ungron's input-scanner failure path (gron.go lines 199-201):
a scanner error yields ExitReadInput with this fixed message. -/
def ungronScanFailure : Nat × String :=
  (ExitReadInput, "failed to read input statements")

/-- Models the message fmt.Errorf(errstr+": %s", err) produces in GronStream
(gron.go lines 166-172) when errstr is "error reading multiline input: %s":
the first %s verb consumes err and the second is left unmatched, which Go fmt
renders as %!s(MISSING). -/
def gronStreamScanErrorMsg (e : String) : String :=
  "error reading multiline input: " ++ e ++ ": %!s(MISSING)"

/-- Models GronStream's control flow and outcome (gron.go lines 138-175):
statement forming runs per scanned line; the first per-line failure aborts
with the default failed-to-form-statements message; otherwise a scanner error
reported after the loop switches the message to the multiline-input one; both
paths return ExitFormStatements. -/
def gronStreamOutcome : List (Except String (List Stmt)) → Option String → Nat × Option String
  | [], none => (ExitOK, none)
  | [], some e => (ExitFormStatements, some (gronStreamScanErrorMsg e))
  | .error e :: _, _ => (ExitFormStatements, some ("failed to form statements: " ++ e))
  | .ok _ :: rest, serr => gronStreamOutcome rest serr

/-- The maximum scanner token size GronStream configures
(gron.go line 136: sc.Buffer(buf, 1024*1024)). -/
def maxScanTokenSize : Nat := 1024 * 1024

/-- Models bufio.Scanner line scanning as configured by GronStream (gron.go
lines 134-137): lines are delivered in order until one exceeds the maximum
token size, which stops scanning and surfaces bufio.ErrTooLong. -/
def scanLines (input : List String) : List String × Option String :=
  (input.takeWhile (fun l => l.length ≤ maxScanTokenSize),
   if input.all (fun l => l.length ≤ maxScanTokenSize) then none
   else some "bufio.Scanner: token too long")

/-- Models GronStream end to end on line-oriented input (gron.go lines
91-175): scan lines under the 1 MiB cap, form statements per delivered line,
then surface any scanner error. -/
def gronStreamRun (input : List String)
    (parseLine : String → Except String (List Stmt)) : Nat × Option String :=
  gronStreamOutcome ((scanLines input).1.map parseLine) (scanLines input).2

/-- Models Gron's outcome on a successfully decoded whole document (gron.go
lines 50-86): the statements are emitted and the exit code is ExitOK; no
per-line size limit exists in this mode. -/
def gronRun (v : Json) (opts : Nat) : Nat × List Stmt :=
  (ExitOK, gronStatements v opts)

/-- The argument type of makePrefix from the absent statements.go: the tests
pass Go int or string keys. -/
inductive MakePrefixArg where
  | int (n : Int)
  | str (s : String)

/-- Modelled from the spec: makePrefix of the absent statements.go (tested by
statements_test.go, spec §8 path rendering): extend a rendered path prefix by
one segment, bracketing integer keys, dotting bare string keys and
bracket-quoting all other string keys. -/
def makePrefix : String → MakePrefixArg → Except String String
  | prev, .int n => .ok (prev ++ "[" ++ toString n ++ "]")
  | prev, .str s =>
    if keyMustBeQuoted s then .ok (prev ++ "[" ++ quoteString s ++ "]")
    else .ok (prev ++ "." ++ s)

/-- Pair-level view of the merger's per-statement walk (spec §4.4): descend
along a path, creating and extending containers on demand, and assign the
value at the end, overwriting whatever was there. -/
def insertP : Json → Path → Json → Except UngronError Json
  | _, [], a => .ok a
  | t, .key k :: p, a =>
    match coerceObj t with
    | none => .error .typeConflict
    | some kvs => (insertP (lookupD kvs k) p a).map fun w => .obj (setKV kvs k w)
  | t, .idx i :: p, a =>
    match coerceArr t with
    | none => .error .typeConflict
    | some xs =>
      (insertP ((padTo (i + 1) xs).getD i .null) p a).map
        fun w => .arr ((padTo (i + 1) xs).set i w)

/-- Follow a path inside a value (total, with Null as default). -/
def getP : Json → Path → Json
  | v, [] => v
  | v, .key k :: p =>
    match v with
    | .obj kvs => getP (lookupD kvs k) p
    | _ => .null
  | v, .idx i :: p =>
    match v with
    | .arr xs => getP (xs.getD i .null) p
    | _ => .null

/-- The object key addressed by the first segment of a path, if any. -/
def headKeyOf : Path → Option String
  | .key k :: _ => some k
  | _ => none

/-- One more than the array index addressed by the first segment of a path,
if any: the array length that index forces (spec §4.4 gap-filling). -/
def headIdxBound : Path → Option Nat
  | .idx i :: _ => some (i + 1)
  | _ => none

/-- Remove duplicates keeping the first occurrence of each key, matching the
key order produced by repeated setKV insertion. -/
def dedupF : List String → List String
  | [] => []
  | k :: ks => k :: (dedupF ks).filter (fun x => x != k)

/-- The object keys addressed by a path collection, in first-come order. -/
def headKeys (S : List Path) : List String := dedupF (S.filterMap headKeyOf)

/-- The residual path collection under an object key. -/
def residKey (k : String) (S : List Path) : List Path :=
  S.filterMap fun p =>
    match p with
    | .key k' :: q => if k' = k then some q else none
    | _ => none

/-- The residual path collection under an array index. -/
def residIdx (i : Nat) (S : List Path) : List Path :=
  S.filterMap fun p =>
    match p with
    | .idx j :: q => if j = i then some q else none
    | _ => none

/-- The array length forced by a path collection: one more than the largest
index addressed (spec §4.4 gap-filling). -/
def maxIdx (S : List Path) : Nat := (S.filterMap headIdxBound).foldr max 0

/-- Select and order the entries of an association list by a key list. -/
def reorder (ks : List String) (l : List (String × Json)) : List (String × Json) :=
  ks.filterMap fun k => (l.lookup k).map fun w => (k, w)

/-- The partially merged tree after the statements for exactly the paths S of
value v have been merged, parents first: objects hold the keys addressed so
far in first-assignment order, arrays are padded with Null up to the largest
index addressed so far, untouched nodes are Null. -/
def restrict (v : Json) (S : List Path) : Json :=
  if S = [] then .null
  else
    match v with
    | .obj kvs =>
      .obj (reorder (headKeys S)
        (kvs.attach.map fun kv => (kv.1.1, restrict kv.1.2 (residKey kv.1.1 S))))
    | .arr xs =>
      .arr ((List.range (maxIdx S)).map fun i =>
        if h : i < xs.length then restrict xs[i] (residIdx i S) else .null)
    | w => w
termination_by sizeOf v
decreasing_by
  · obtain ⟨⟨a, b⟩, hm⟩ := kv
    have h1 := List.sizeOf_lt_of_mem hm
    simp at h1 ⊢
    omega
  · have := List.sizeOf_lt_of_mem (List.getElem_mem h)
    simp at this ⊢
    omega

mutual
/-- Whether a value is a well-formed JSON value: every object has distinct
keys (spec §3: object keys unique). -/
def validJson : Json → Bool
  | .arr xs => validArr xs
  | .obj kvs => validObj kvs
  | _ => true

/-- Array elements are all well-formed. -/
def validArr : List Json → Bool
  | [] => true
  | x :: xs => validJson x && validArr xs

/-- Object fields have pairwise distinct keys and well-formed values. -/
def validObj : List (String × Json) → Bool
  | [] => true
  | (k, w) :: kvs => !(decide (k ∈ kvs.map Prod.fst)) && validJson w && validObj kvs
end

/-- Equality of JSON values up to object key order (spec §8: round trip up to
object-key-order and number-representation-preserving equality; numbers carry
their literal, so plain equality preserves representation). -/
inductive Eqv : Json → Json → Prop where
  | null : Eqv .null .null
  | bool (b : Bool) : Eqv (.bool b) (.bool b)
  | num (lit : String) : Eqv (.num lit) (.num lit)
  | str (s : String) : Eqv (.str s) (.str s)
  | arr {xs ys : List Json} : List.Forall₂ Eqv xs ys → Eqv (.arr xs) (.arr ys)
  | obj {kvs kvs' : List (String × Json)} (mid : List (String × Json)) :
      List.Perm kvs mid →
      mid.map Prod.fst = kvs'.map Prod.fst →
      List.Forall₂ Eqv (mid.map Prod.snd) (kvs'.map Prod.snd) →
      Eqv (.obj kvs) (.obj kvs')

/-- Structural induction principle for Json with hypotheses on the members of
the nested lists. -/
def Json.indOn {P : Json → Prop} (v : Json)
    (hnull : P .null) (hbool : ∀ b, P (.bool b)) (hnum : ∀ lit, P (.num lit))
    (hstr : ∀ s, P (.str s))
    (harr : ∀ xs, (∀ x ∈ xs, P x) → P (.arr xs))
    (hobj : ∀ kvs, (∀ kv ∈ kvs, P kv.2) → P (.obj kvs)) : P v :=
  match v with
  | .null => hnull
  | .bool b => hbool b
  | .num lit => hnum lit
  | .str s => hstr s
  | .arr xs => harr xs (fun x hx => Json.indOn x hnull hbool hnum hstr harr hobj)
  | .obj kvs => hobj kvs (fun kv hkv => Json.indOn kv.2 hnull hbool hnum hstr harr hobj)
termination_by sizeOf v
decreasing_by
  · have := List.sizeOf_lt_of_mem hx
    simp at this ⊢
    omega
  · obtain ⟨a, b⟩ := kv
    have h1 := List.sizeOf_lt_of_mem hkv
    simp at h1 ⊢
    omega

/-- The composite the round-trip claim is about: walk the value from the root
statement json, sort the statements, merge them, and apply Ungron's top-level
collapsing (Gron composed with Ungron at the statement level). -/
def gronThenUngron (v : Json) : Except UngronError Json :=
  (merge (sortStatements (statementsFromJSON [.bare "json"] v))).map collapse

/-! ## Theorems -/

/-- Unfolding equation for keyMustBeQuoted. -/
theorem keyMustBeQuoted_eq (s : String) :
    keyMustBeQuoted s =
      match s.data with
      | [] => true
      | c :: cs => !(validFirstChar c && cs.all validSecondaryChar) := rfl

/-- C7: keyMustBeQuoted returns false exactly for non-empty keys that start
with a letter or underscore followed by zero or more letters, digits, or
underscores, and true for every other key; in particular on the four
boundary examples of TestKeyMustBeQuoted. -/
theorem keyMustBeQuoted_spec :
    (∀ s : String, keyMustBeQuoted s = false ↔
      ∃ c cs, s.data = c :: cs ∧ (c.isAlpha = true ∨ c = '_') ∧
        ∀ d ∈ cs, d.isAlpha = true ∨ d.isDigit = true ∨ d = '_') ∧
    keyMustBeQuoted "dotted" = false ∧
    keyMustBeQuoted "dotted123" = false ∧
    keyMustBeQuoted "is-quoted" = true ∧
    keyMustBeQuoted "Definitely quoted!" = true := by
  refine ⟨?_, by decide, by decide, by decide, by decide⟩
  intro s
  rw [keyMustBeQuoted_eq]
  cases hd : s.data with
  | nil => simp
  | cons c cs =>
    simp only [validFirstChar, validSecondaryChar, List.all_eq_true, Bool.not_eq_false',
      Bool.and_eq_true, Bool.or_eq_true, decide_eq_true_eq]
    constructor
    · rintro ⟨h1, h2⟩
      refine ⟨c, cs, rfl, h1, fun d hd => ?_⟩
      rcases h2 d hd with (h | h) | h
      · exact .inl h
      · exact .inr (.inl h)
      · exact .inr (.inr h)
    · rintro ⟨c1, cs1, hcc, hf, hr⟩
      injection hcc with hc1 hc2
      subst hc1
      subst hc2
      refine ⟨hf, fun x hx => ?_⟩
      rcases hr x hx with h | h | h
      · exact .inl (.inl h)
      · exact .inl (.inr h)
      · exact .inr h

/-- C8: makePrefix extends a rendered path prefix by one segment: integer
keys are bracketed, bare-identifier string keys are dotted, all other string
keys are quoted inside brackets; no error is returned for these inputs
(TestPrefixHappy). -/
theorem makePrefix_examples :
    makePrefix "j" (.int 123) = .ok "j[123]" ∧
    makePrefix "j" (.str "dotted") = .ok "j.dotted" ∧
    makePrefix "j" (.str "un-dotted") = .ok "j[\"un-dotted\"]" :=
  ⟨rfl, rfl, rfl⟩

/-- C2: after merging, the value is unwrapped if and only if it is an object
with exactly one key and that key is the literal root name json; any other
merged value is kept unchanged by collapse (gron.go lines 209-217). -/
theorem collapse_spec :
    ∀ v : Json,
      (∃ w, v = .obj [("json", w)] ∧ collapse v = w) ∨
      ((∀ w, v ≠ .obj [("json", w)]) ∧ collapse v = v) := by
  intro v
  match v with
  | .null => exact .inr ⟨fun w h => by simp at h, rfl⟩
  | .bool b => exact .inr ⟨fun w h => by simp at h, rfl⟩
  | .num lit => exact .inr ⟨fun w h => by simp at h, rfl⟩
  | .str s => exact .inr ⟨fun w h => by simp at h, rfl⟩
  | .arr xs => exact .inr ⟨fun w h => by simp at h, rfl⟩
  | .obj [] => exact .inr ⟨fun w h => by simp at h, rfl⟩
  | .obj [(k, w)] =>
    by_cases hk : k = "json"
    · subst hk
      exact .inl ⟨w, rfl, by simp [collapse]⟩
    · refine .inr ⟨fun w' h => ?_, by simp [collapse, hk]⟩
      simp at h
      exact hk h.1
  | .obj (a :: b :: rest) =>
    exact .inr ⟨fun w h => by simp at h, by simp [collapse]⟩

/-- C3 (corrected): the frozen universal — every collection containing a
scalar assignment to a path and a later container addressing of the same path
fails — is false (see the counterexample: an intervening null assignment
resets the path, and Null upgrades to a container per spec §4.4). What holds
is the merger's immediate conflict rule: a path whose current value is a
non-null scalar cannot be addressed as a container by any of the three
segment forms, yielding TypeConflict; the fold aborts at the first error, so
no later statement is consulted; every failing merge makes Ungron return the
parse-statements outcome with no JSON value emitted (gron.go lines 203-207);
and in particular the claim's own two-statement example json.a = 1; followed
by json.a[0] = 2; fails exactly this way. -/
theorem merge_scalar_container_conflict :
    (∀ (t : Json) (i : Nat) (rest : List Tok), isScalar t = true →
      ungronTokens t (.lbrace :: .numKey i :: .rbrace :: rest)
        = .error .typeConflict) ∧
    (∀ (t : Json) (k : String) (rest : List Tok), isScalar t = true →
      ungronTokens t (.dot :: .bare k :: rest) = .error .typeConflict) ∧
    (∀ (t : Json) (k : String) (rest : List Tok), isScalar t = true →
      ungronTokens t (.lbrace :: .quotedKey k :: .rbrace :: rest)
        = .error .typeConflict) ∧
    (∀ (ss₁ ss₂ : List Stmt) (e : UngronError), merge ss₁ = .error e →
      merge (ss₁ ++ ss₂) = .error e) ∧
    (∀ (ss : List Stmt) (e : UngronError), merge ss = .error e →
      ungronMerge ss = (ExitParseStatements, none)) ∧
    merge [[.bare "json", .dot, .bare "a", .equals, .litNum "1", .semi],
           [.bare "json", .dot, .bare "a",
            .lbrace, .numKey 0, .rbrace, .equals, .litNum "2", .semi]]
      = .error .typeConflict ∧
    ungronMerge [[.bare "json", .dot, .bare "a", .equals, .litNum "1", .semi],
           [.bare "json", .dot, .bare "a",
            .lbrace, .numKey 0, .rbrace, .equals, .litNum "2", .semi]]
      = (ExitParseStatements, none) := by
  refine ⟨?_, ?_, ?_, ?_, ?_, rfl, rfl⟩
  · intro t i rest h
    cases t with
    | bool b => rfl
    | num lit => rfl
    | str s => rfl
    | null => exact Bool.noConfusion h
    | arr xs => exact Bool.noConfusion h
    | obj kvs => exact Bool.noConfusion h
  · intro t k rest h
    cases t with
    | bool b => rfl
    | num lit => rfl
    | str s => rfl
    | null => exact Bool.noConfusion h
    | arr xs => exact Bool.noConfusion h
    | obj kvs => exact Bool.noConfusion h
  · intro t k rest h
    cases t with
    | bool b => rfl
    | num lit => rfl
    | str s => rfl
    | null => exact Bool.noConfusion h
    | arr xs => exact Bool.noConfusion h
    | obj kvs => exact Bool.noConfusion h
  · intro ss₁ ss₂ e h
    rw [show merge (ss₁ ++ ss₂)
        = (merge ss₁ >>= fun t => List.foldlM mergeStmt t ss₂) from by
      rw [merge, merge, List.foldlM_append]]
    rw [h]
    rfl
  · intro ss e h
    show (match merge ss with
      | .error _ => (ExitParseStatements, none)
      | .ok m => (ExitOK, some (collapse m))) = (ExitParseStatements, none)
    rw [h]

/-- Witness for C3 at concrete inputs: the conflict rule at the scalar 1
addressed as an array, the abort of an extended failing collection, and the
Ungron outcome of the claim's example. -/
theorem merge_scalar_container_conflict_witness :
    (isScalar (Json.num "1") = true ∧
      ungronTokens (Json.num "1")
        (.lbrace :: .numKey 0 :: .rbrace :: [.equals, .litNum "2", .semi])
        = .error .typeConflict) ∧
    merge ([[.bare "json", .dot, .bare "a", .equals, .litNum "1", .semi],
            [.bare "json", .dot, .bare "a",
             .lbrace, .numKey 0, .rbrace, .equals, .litNum "2", .semi]]
           ++ [[.bare "json", .dot, .bare "b", .equals, .litTrue, .semi]])
      = .error .typeConflict ∧
    ungronMerge [[.bare "json", .dot, .bare "a", .equals, .litNum "1", .semi],
           [.bare "json", .dot, .bare "a",
            .lbrace, .numKey 0, .rbrace, .equals, .litNum "2", .semi]]
      = (ExitParseStatements, none) :=
  ⟨⟨rfl, merge_scalar_container_conflict.1 (Json.num "1") 0
      [.equals, .litNum "2", .semi] rfl⟩,
   merge_scalar_container_conflict.2.2.2.1 _ _ .typeConflict
     merge_scalar_container_conflict.2.2.2.2.2.1,
   merge_scalar_container_conflict.2.2.2.2.1 _ .typeConflict
     merge_scalar_container_conflict.2.2.2.2.2.1⟩

/-- Counterexample for C3's frozen universal: this collection is in the
claim's class — json.a is assigned the scalar 1 and json.a is later addressed
as an array — yet the merge succeeds, because the intervening json.a = null;
overwrites the path and Null upgrades to a container (spec §4.4); Ungron
emits a value with ExitOK. -/
theorem merge_scalar_container_conflict_counterexample :
    merge [[.bare "json", .dot, .bare "a", .equals, .litNum "1", .semi],
           [.bare "json", .dot, .bare "a", .equals, .litNull, .semi],
           [.bare "json", .dot, .bare "a",
            .lbrace, .numKey 0, .rbrace, .equals, .litNum "2", .semi]]
      = .ok (.obj [("json", .obj [("a", .arr [.num "2"])])]) ∧
    ungronMerge [[.bare "json", .dot, .bare "a", .equals, .litNum "1", .semi],
           [.bare "json", .dot, .bare "a", .equals, .litNull, .semi],
           [.bare "json", .dot, .bare "a",
            .lbrace, .numKey 0, .rbrace, .equals, .litNum "2", .semi]]
      = (ExitOK, some (.obj [("a", .arr [.num "2"])])) :=
  ⟨rfl, rfl⟩

/-- C6: when a NumericKey segment addresses index i of an array whose current
length is at most i, the array is extended with Null placeholders to length
i+1 (existing entries kept, the gap filled with Null), and merging the single
statement json.arr[2] = "x"; produces arr equal to [null, null, "x"]. -/
theorem merge_gap_fill :
    (∀ (xs : List Json) (i : Nat), xs.length ≤ i →
      (padTo (i + 1) xs).length = i + 1 ∧
      (∀ j, j < xs.length → (padTo (i + 1) xs).getD j .null = xs.getD j .null) ∧
      (∀ j, xs.length ≤ j → j ≤ i → (padTo (i + 1) xs).getD j .null = .null)) ∧
    merge [[.bare "json", .dot, .bare "arr",
            .lbrace, .numKey 2, .rbrace, .equals, .litStr "x", .semi]]
      = .ok (.obj [("json", .obj [("arr", .arr [.null, .null, .str "x"])])]) := by
  constructor
  · intro xs i hle
    refine ⟨by simp [padTo]; omega, fun j hj => ?_, fun j h1 h2 => ?_⟩
    · simp only [padTo]
      rw [List.getD_append _ _ _ _ hj]
    · simp only [padTo]
      rw [List.getD_append_right _ _ _ _ h1, List.getD_eq_getElem?_getD,
        List.getElem?_replicate]
      have hlt : j - xs.length < i + 1 - xs.length := by omega
      simp [hlt]
  · rfl

/-- Witness for merge_gap_fill at the concrete instance xs = [], i = 2. -/
theorem merge_gap_fill_witness :
    ([] : List Json).length ≤ 2 ∧ (padTo 3 ([] : List Json)).length = 3 :=
  ⟨Nat.zero_le 2, (merge_gap_fill.1 [] 2 (Nat.zero_le 2)).1⟩

/-- C9: when the line scanner fails partway through streaming mode (all lines
delivered so far formed statements successfully), GronStream returns
ExitFormStatements (3) with an error message beginning with the text
"error reading multiline input", whereas Ungron returns ExitReadInput (2)
for its own scanner failures (gron.go lines 166-175, 199-201). -/
theorem stream_scan_error_exit_codes :
    (∀ (rs : List (Except String (List Stmt))) (e : String),
       (∀ r ∈ rs, ∃ sts, r = .ok sts) →
       gronStreamOutcome rs (some e)
         = (ExitFormStatements, some (gronStreamScanErrorMsg e)) ∧
       ∃ rest, gronStreamScanErrorMsg e = "error reading multiline input" ++ rest) ∧
    ungronScanFailure.1 = ExitReadInput ∧
    ExitFormStatements = 3 ∧ ExitReadInput = 2 := by
  refine ⟨?_, rfl, rfl, rfl⟩
  intro rs e hok
  constructor
  · induction rs with
    | nil => rfl
    | cons r rest ih =>
      obtain ⟨sts, rfl⟩ := hok r (List.mem_cons_self r rest)
      simpa [gronStreamOutcome] using ih (fun r hr => hok r (List.mem_cons_of_mem _ hr))
  · refine ⟨": " ++ (e ++ ": %!s(MISSING)"), ?_⟩
    have h1 : ("error reading multiline input: " : String)
        = "error reading multiline input" ++ ": " := rfl
    rw [gronStreamScanErrorMsg, h1, String.append_assoc, String.append_assoc]

/-- Witness for stream_scan_error_exit_codes at the empty statement list and
a concrete scanner error. -/
theorem stream_scan_error_exit_codes_witness :
    (∀ r ∈ ([] : List (Except String (List Stmt))), ∃ sts, r = .ok sts) ∧
    (gronStreamOutcome [] (some "read failed")
       = (ExitFormStatements, some (gronStreamScanErrorMsg "read failed")) ∧
     ∃ rest, gronStreamScanErrorMsg "read failed"
       = "error reading multiline input" ++ rest) :=
  ⟨fun r hr => absurd hr (List.not_mem_nil r),
   stream_scan_error_exit_codes.1 [] "read failed"
     (fun r hr => absurd hr (List.not_mem_nil r))⟩

/-- With a pending scanner error, GronStream's outcome code is always
ExitFormStatements, whether or not some line also failed to form statements. -/
theorem gronStreamOutcome_some_fst :
    ∀ (rs : List (Except String (List Stmt))) (e : String),
      (gronStreamOutcome rs (some e)).1 = ExitFormStatements := by
  intro rs e
  induction rs with
  | nil => rfl
  | cons r rest ih =>
    match r with
    | .error msg => rfl
    | .ok sts => simpa [gronStreamOutcome] using ih

/-- C10: GronStream's line scanner buffer is capped at 1024*1024 bytes; any
input containing a line longer than that limit makes GronStream fail with
ExitFormStatements (a non-OK exit code) regardless of how the lines parse,
while whole-document Gron has no per-line limit and returns ExitOK for every
decoded document (gron.go lines 133-137, 166-175). -/
theorem stream_line_length_limit :
    maxScanTokenSize = 1024 * 1024 ∧
    (∀ (input : List String) (parseLine : String → Except String (List Stmt)),
      (∃ l ∈ input, maxScanTokenSize < l.length) →
      (gronStreamRun input parseLine).1 = ExitFormStatements ∧
      (gronStreamRun input parseLine).1 ≠ ExitOK) ∧
    (∀ (v : Json) (opts : Nat), (gronRun v opts).1 = ExitOK) := by
  refine ⟨rfl, ?_, fun v opts => rfl⟩
  intro input parseLine hlong
  have hall : input.all (fun l => l.length ≤ maxScanTokenSize) = false := by
    obtain ⟨l, hl, hlen⟩ := hlong
    rcases h : input.all (fun l => l.length ≤ maxScanTokenSize) with _ | _
    · rfl
    · have := (List.all_eq_true.mp h) l hl
      simp at this
      omega
  have hfst : (gronStreamRun input parseLine).1 = ExitFormStatements := by
    rw [gronStreamRun, scanLines]
    simp only [hall, if_false]
    exact gronStreamOutcome_some_fst _ _
  exact ⟨hfst, by rw [hfst]; decide⟩

/-- Witness for stream_line_length_limit at a concrete one-line input just
over the limit. -/
theorem stream_line_length_limit_witness :
    (∃ l ∈ [String.mk (List.replicate (1024 * 1024 + 1) 'a')],
       maxScanTokenSize < l.length) ∧
    (gronStreamRun [String.mk (List.replicate (1024 * 1024 + 1) 'a')]
        (fun _ => .ok [])).1 = ExitFormStatements := by
  have hmem : String.mk (List.replicate (1024 * 1024 + 1) 'a')
      ∈ [String.mk (List.replicate (1024 * 1024 + 1) 'a')] :=
    List.mem_singleton.mpr rfl
  have hlen : maxScanTokenSize
      < (String.mk (List.replicate (1024 * 1024 + 1) 'a')).length := by
    have h : (String.mk (List.replicate (1024 * 1024 + 1) 'a')).length
        = 1024 * 1024 + 1 := by
      rw [show (String.mk (List.replicate (1024 * 1024 + 1) 'a')).length
          = (List.replicate (1024 * 1024 + 1) 'a').length from rfl,
        List.length_replicate]
    rw [h, maxScanTokenSize]
    omega
  exact ⟨⟨_, hmem, hlen⟩,
    (stream_line_length_limit.2.1 _ (fun _ => .ok []) ⟨_, hmem, hlen⟩).1⟩

/-- Unfolding equation for lexLe on two nonempty lists. -/
theorem lexLe_cons (a b : Char) (as bs : List Char) :
    lexLe (a :: as) (b :: bs)
      = if a < b then true else if b < a then false else lexLe as bs := rfl

/-- lexLe is reflexive. -/
theorem lexLe_refl : ∀ a : List Char, lexLe a a = true := by
  intro a
  induction a with
  | nil => rfl
  | cons c cs ih =>
    rw [lexLe_cons, if_neg (lt_irrefl c), if_neg (lt_irrefl c)]
    exact ih

/-- lexLe is total. -/
theorem lexLe_total : ∀ a b : List Char, lexLe a b = true ∨ lexLe b a = true := by
  intro a
  induction a with
  | nil => exact fun b => .inl rfl
  | cons c cs ih =>
    intro b
    cases b with
    | nil => exact .inr rfl
    | cons d ds =>
      rcases lt_trichotomy c d with h | h | h
      · left
        rw [lexLe_cons, if_pos h]
      · subst h
        rcases ih ds with h2 | h2
        · left
          rw [lexLe_cons, if_neg (lt_irrefl c), if_neg (lt_irrefl c)]
          exact h2
        · right
          rw [lexLe_cons, if_neg (lt_irrefl c), if_neg (lt_irrefl c)]
          exact h2
      · right
        rw [lexLe_cons, if_pos h]

/-- lexLe is transitive. -/
theorem lexLe_trans : ∀ a b c : List Char,
    lexLe a b = true → lexLe b c = true → lexLe a c = true := by
  intro a
  induction a with
  | nil => intro b c _ _; rfl
  | cons x xs ih =>
    intro b c hab hbc
    cases b with
    | nil => exact absurd hab (by rw [show lexLe (x :: xs) [] = false from rfl]; simp)
    | cons y ys =>
      cases c with
      | nil => exact absurd hbc (by rw [show lexLe (y :: ys) [] = false from rfl]; simp)
      | cons z zs =>
        rw [lexLe_cons] at hab hbc ⊢
        by_cases hxy : x < y
        · by_cases hyz : y < z
          · rw [if_pos (lt_trans hxy hyz)]
          · by_cases hzy : z < y
            · rw [if_neg hyz, if_pos hzy] at hbc
              cases hbc
            · have hyeq : y = z := le_antisymm (not_lt.mp hzy) (not_lt.mp hyz)
              subst hyeq
              rw [if_pos hxy]
        · by_cases hyx : y < x
          · rw [if_neg hxy, if_pos hyx] at hab
            cases hab
          · have hxeq : x = y := le_antisymm (not_lt.mp hyx) (not_lt.mp hxy)
            subst hxeq
            rw [if_neg (lt_irrefl x), if_neg (lt_irrefl x)] at hab
            by_cases hxz : x < z
            · rw [if_pos hxz]
            · by_cases hzx : z < x
              · rw [if_neg hxz, if_pos hzx] at hbc
                cases hbc
              · have hzeq : x = z := le_antisymm (not_lt.mp hzx) (not_lt.mp hxz)
                subst hzeq
                rw [if_neg (lt_irrefl x), if_neg (lt_irrefl x)] at hbc ⊢
                exact ih _ _ hab hbc

/-- stmtLe is total. -/
theorem stmtLe_total (a b : Stmt) : stmtLe a b = true ∨ stmtLe b a = true :=
  lexLe_total _ _

/-- stmtLe is transitive, in the form the sorting lemmas expect. -/
theorem stmtLe_trans : ∀ a b c : Stmt,
    stmtLe a b = true → stmtLe b c = true → stmtLe a c = true :=
  fun _ _ _ hab hbc => lexLe_trans _ _ _ hab hbc

/-- stmtLe is total, in the Bool-or form the sorting lemmas expect. -/
theorem stmtLe_total_bool : ∀ a b : Stmt, (stmtLe a b || stmtLe b a) = true := by
  intro a b
  rcases stmtLe_total a b with h | h <;> simp [h]

/-- Stability of the statement sort: filtering the sorted output by any class
of statements that compare mutually le gives the filtered input unchanged. -/
theorem sortStatements_filter_class (ss : List Stmt) (p : Stmt → Bool)
    (hp : ∀ a b, p a = true → p b = true → stmtLe a b = true) :
    (sortStatements ss).filter p = ss.filter p := by
  have hpair : (ss.filter p).Pairwise (fun a b => stmtLe a b = true) := by
    refine List.pairwise_of_forall_mem_list fun a ha b hb => ?_
    exact hp a b (List.of_mem_filter ha) (List.of_mem_filter hb)
  have hsub : (ss.filter p).Sublist (sortStatements ss) :=
    List.sublist_mergeSort stmtLe_trans stmtLe_total_bool hpair (List.filter_sublist ss)
  have hsub2 : (ss.filter p).Sublist ((sortStatements ss).filter p) := by
    have h2 := hsub.filter p
    rwa [List.filter_filter, show (fun a => p a && p a) = p from funext fun a => Bool.and_self _]
      at h2
  have hperm : ((sortStatements ss).filter p).Perm (ss.filter p) :=
    (List.mergeSort_perm ss stmtLe).filter p
  exact (hsub2.eq_of_length hperm.length_eq.symm).symm

/-- C4: the Statement Sorter is the total deterministic order given by
lexicographic comparison of rendered text, applied as a stable sort; when
OptNoSort is unset Gron emits the walked statements in sorted order (a sorted
permutation, stable on equal-text classes), and when OptNoSort is set it
emits the walker's natural order unchanged (gron.go lines 65-79). -/
theorem gron_sort_spec :
    (∀ a b : Stmt, stmtLe a b = lexLe (renderStmt a).data (renderStmt b).data) ∧
    (∀ a b : Stmt, stmtLe a b = true ∨ stmtLe b a = true) ∧
    (∀ (v : Json) (opts : Nat), opts &&& OptNoSort = 0 →
       List.Pairwise (fun a b => stmtLe a b = true) (gronStatements v opts) ∧
       (gronStatements v opts).Perm (statementsFromJSON [.bare "json"] v) ∧
       (∀ key : String,
          (gronStatements v opts).filter (fun s => renderStmt s == key)
            = (statementsFromJSON [.bare "json"] v).filter
                (fun s => renderStmt s == key))) ∧
    (∀ (v : Json) (opts : Nat), opts &&& OptNoSort ≠ 0 →
       gronStatements v opts = statementsFromJSON [.bare "json"] v) := by
  refine ⟨fun a b => rfl, stmtLe_total, ?_, ?_⟩
  · intro v opts h
    have hcond : (opts &&& OptNoSort == 0) = true := by simp [h]
    unfold gronStatements
    simp only [hcond, if_true]
    refine ⟨List.sorted_mergeSort stmtLe_trans stmtLe_total_bool _,
      List.mergeSort_perm _ _, ?_⟩
    intro key
    apply sortStatements_filter_class
    intro a b ha hb
    have ha' : renderStmt a = key := by simpa using ha
    have hb' : renderStmt b = key := by simpa using hb
    unfold stmtLe
    rw [ha', hb']
    exact lexLe_refl _
  · intro v opts h
    have hcond : (opts &&& OptNoSort == 0) = false := by simpa using h
    unfold gronStatements
    simp [hcond]

/-- Witness for gron_sort_spec at a concrete value with the sorting option
unset and set. -/
theorem gron_sort_spec_witness :
    ((0 : Nat) &&& OptNoSort = 0 ∧
      List.Pairwise (fun a b => stmtLe a b = true) (gronStatements .null 0)) ∧
    ((2 : Nat) &&& OptNoSort ≠ 0 ∧
      gronStatements .null 2 = statementsFromJSON [.bare "json"] .null) :=
  ⟨⟨by decide, (gron_sort_spec.2.2.1 .null 0 (by decide)).1⟩,
   ⟨by decide, gron_sort_spec.2.2.2 .null 2 (by decide)⟩⟩

/-- Every statement the walker produces extends the prefix it was given. -/
theorem pfx_prefix_of_mem_statements :
    ∀ (v : Json) (pfx s : Stmt), s ∈ statementsFromJSON pfx v → pfx <+: s := by
  intro v
  induction v using Json.indOn with
  | hnull =>
    intro pfx s hs
    rcases List.mem_cons.mp hs with h | h
    · subst h; exact List.prefix_append _ _
    · exact absurd h (List.not_mem_nil s)
  | hbool b =>
    intro pfx s hs
    rcases List.mem_cons.mp hs with h | h
    · subst h; exact List.prefix_append _ _
    · exact absurd h (List.not_mem_nil s)
  | hnum lit =>
    intro pfx s hs
    rcases List.mem_cons.mp hs with h | h
    · subst h; exact List.prefix_append _ _
    · exact absurd h (List.not_mem_nil s)
  | hstr s0 =>
    intro pfx s hs
    rcases List.mem_cons.mp hs with h | h
    · subst h; exact List.prefix_append _ _
    · exact absurd h (List.not_mem_nil s)
  | harr xs ih =>
    intro pfx s hs
    rcases List.mem_cons.mp hs with h | h
    · subst h; exact List.prefix_append _ _
    · have aux : ∀ (ys : List Json),
          (∀ x ∈ ys, ∀ (pfx1 s1 : Stmt), s1 ∈ statementsFromJSON pfx1 x → pfx1 <+: s1) →
          ∀ i, s ∈ stmtsArr pfx i ys → pfx <+: s := by
        intro ys
        induction ys with
        | nil => exact fun _ i hmem => absurd hmem (List.not_mem_nil s)
        | cons x rest ihr =>
          intro hys i hmem
          rcases List.mem_append.mp hmem with h1 | h1
          · exact (List.prefix_append pfx (idxToks i)).trans
              (hys x (List.mem_cons_self _ _) _ _ h1)
          · exact ihr (fun y hy => hys y (List.mem_cons_of_mem _ hy)) (i + 1) h1
      exact aux xs ih 0 h
  | hobj kvs ih =>
    intro pfx s hs
    rcases List.mem_cons.mp hs with h | h
    · subst h; exact List.prefix_append _ _
    · have aux : ∀ (ys : List (String × Json)),
          (∀ kv ∈ ys, ∀ (pfx1 s1 : Stmt), s1 ∈ statementsFromJSON pfx1 kv.2 → pfx1 <+: s1) →
          s ∈ stmtsObj pfx ys → pfx <+: s := by
        intro ys
        induction ys with
        | nil => exact fun _ hmem => absurd hmem (List.not_mem_nil s)
        | cons kv rest ihr =>
          obtain ⟨k, w⟩ := kv
          intro hys hmem
          rcases List.mem_append.mp hmem with h1 | h1
          · exact (List.prefix_append pfx (keyToks k)).trans
              (hys (k, w) (List.mem_cons_self _ _) _ _ h1)
          · exact ihr (fun y hy => hys y (List.mem_cons_of_mem _ hy)) h1
      exact aux kvs ih h

/-- C5: in streaming mode the first emitted statement establishes that the
top level is an array, and every statement produced from line i is walked
under the extra fixed path prefix json[i] and hence begins with those tokens
(gron.go lines 105-147). -/
theorem gronStream_prefix_spec :
    (∀ (lines : List Json) (opts : Nat),
       (gronStreamStatements lines opts).head? = some streamTopStmt) ∧
    streamTopStmt = [.bare "json", .equals, .emptyArr, .semi] ∧
    (∀ (opts i : Nat) (v : Json),
       streamLineToks i = [.bare "json", .lbrace, .numKey i, .rbrace] ∧
       ∀ s ∈ streamLineStatements opts i v, streamLineToks i <+: s) := by
  refine ⟨fun lines opts => rfl, rfl, ?_⟩
  intro opts i v
  refine ⟨rfl, fun s hs => ?_⟩
  unfold streamLineStatements at hs
  simp only at hs
  split at hs
  · exact pfx_prefix_of_mem_statements v _ s (List.mem_mergeSort.mp hs)
  · exact pfx_prefix_of_mem_statements v _ s hs

/-- Witness for gronStream_prefix_spec at line index 0 with a null document. -/
theorem gronStream_prefix_spec_witness :
    [Tok.bare "json", .lbrace, .numKey 0, .rbrace, .equals, .litNull, .semi]
      ∈ streamLineStatements 0 0 .null ∧
    streamLineToks 0 <+:
      [Tok.bare "json", .lbrace, .numKey 0, .rbrace, .equals, .litNull, .semi] := by
  have hmem : [Tok.bare "json", .lbrace, .numKey 0, .rbrace, .equals, .litNull, .semi]
      ∈ streamLineStatements 0 0 .null := by
    unfold streamLineStatements
    rw [show statementsFromJSON (streamLineToks 0) Json.null
        = [[Tok.bare "json", .lbrace, .numKey 0, .rbrace, .equals, .litNull, .semi]]
        from rfl]
    simp [sortStatements, List.mergeSort_singleton]
  exact ⟨hmem, (gronStream_prefix_spec.2.2 0 0 .null).2 _ hmem⟩

/-! ### Walker path lemmas (towards the round trip) -/

/-- walkPairs on an object. -/
theorem walkPairs_obj (kvs : List (String × Json)) :
    walkPairs (.obj kvs) = ([], .obj []) :: walkO kvs := rfl

/-- walkPairs on an array. -/
theorem walkPairs_arr (xs : List Json) :
    walkPairs (.arr xs) = ([], .arr []) :: walkA 0 xs := rfl

/-- walkPairs on null. -/
theorem walkPairs_null : walkPairs .null = [([], .null)] := rfl

/-- walkPairs on a boolean. -/
theorem walkPairs_bool (b : Bool) : walkPairs (.bool b) = [([], .bool b)] := rfl

/-- walkPairs on a number. -/
theorem walkPairs_num (lit : String) : walkPairs (.num lit) = [([], .num lit)] := rfl

/-- walkPairs on a string. -/
theorem walkPairs_str (s : String) : walkPairs (.str s) = [([], .str s)] := rfl

/-- The head pair of the walker is the node's own assignment. -/
theorem walkPairs_head (v : Json) :
    ∃ rest, walkPairs v = ([], headVal v) :: rest := by
  cases v with
  | null => exact ⟨[], rfl⟩
  | bool b => exact ⟨[], rfl⟩
  | num lit => exact ⟨[], rfl⟩
  | str s => exact ⟨[], rfl⟩
  | arr xs => exact ⟨walkA 0 xs, rfl⟩
  | obj kvs => exact ⟨walkO kvs, rfl⟩

/-- Membership in the object walker helper. -/
theorem mem_walkO : ∀ (kvs : List (String × Json)) (pa : Path × Json),
    pa ∈ walkO kvs ↔
      ∃ kv ∈ kvs, ∃ q b, pa = (Seg.key kv.1 :: q, b) ∧ (q, b) ∈ walkPairs kv.2 := by
  intro kvs pa
  induction kvs with
  | nil => simp [walkO]
  | cons kv rest ih =>
    obtain ⟨k, w⟩ := kv
    rw [walkO]
    simp only [List.mem_append, List.mem_map, ih]
    constructor
    · rintro (⟨⟨q, b⟩, hqb, rfl⟩ | ⟨kv', hkv', q, b, rfl, hqb⟩)
      · exact ⟨(k, w), List.mem_cons_self _ _, q, b, rfl, hqb⟩
      · exact ⟨kv', List.mem_cons_of_mem _ hkv', q, b, rfl, hqb⟩
    · rintro ⟨kv', hkv', q, b, rfl, hqb⟩
      rcases List.mem_cons.mp hkv' with h | h
      · subst h
        exact .inl ⟨(q, b), hqb, rfl⟩
      · exact .inr ⟨kv', h, q, b, rfl, hqb⟩

/-- Membership in the array walker helper, with the index offset. -/
theorem mem_walkA : ∀ (xs : List Json) (i : Nat) (pa : Path × Json),
    pa ∈ walkA i xs ↔
      ∃ j, ∃ h : j < xs.length, ∃ q b,
        pa = (Seg.idx (i + j) :: q, b) ∧ (q, b) ∈ walkPairs xs[j] := by
  intro xs
  induction xs with
  | nil => intro i pa; simp [walkA]
  | cons x rest ih =>
    intro i pa
    rw [walkA]
    simp only [List.mem_append, List.mem_map]
    constructor
    · rintro (⟨⟨q, b⟩, hqb, rfl⟩ | h)
      · exact ⟨0, by simp, q, b, by simp, by simpa using hqb⟩
      · obtain ⟨j, hj, q, b, rfl, hqb⟩ := (ih (i + 1) pa).mp h
        refine ⟨j + 1, by simpa using Nat.succ_lt_succ hj, q, b, ?_, by simpa using hqb⟩
        have harith : i + 1 + j = i + (j + 1) := by omega
        rw [harith]
    · rintro ⟨j, hj, q, b, rfl, hqb⟩
      cases j with
      | zero =>
        left
        exact ⟨(q, b), by simpa using hqb, by simp⟩
      | succ j' =>
        right
        refine (ih (i + 1) _).mpr
          ⟨j', by simp only [List.length_cons] at hj; omega, q, b, ?_, by simpa using hqb⟩
        have harith : i + 1 + j' = i + (j' + 1) := by omega
        rw [harith]

/-- Membership of a path in pathsOf, via the walker pairs. -/
theorem mem_pathsOf {p : Path} {v : Json} :
    p ∈ pathsOf v ↔ ∃ a, (p, a) ∈ walkPairs v := by
  constructor
  · intro h
    obtain ⟨pa, hpa, hfst⟩ := List.mem_map.mp h
    refine ⟨pa.2, ?_⟩
    rw [← hfst]
    exact hpa
  · rintro ⟨a, ha⟩
    exact List.mem_map.mpr ⟨(p, a), ha, rfl⟩

/-- The empty path is always addressed. -/
theorem nil_mem_pathsOf (v : Json) : [] ∈ pathsOf v := by
  obtain ⟨rest, h⟩ := walkPairs_head v
  exact mem_pathsOf.mpr ⟨headVal v, by rw [h]; exact List.mem_cons_self _ _⟩

/-- A key-headed path is addressed in an object iff some entry with that key
has the tail addressed. -/
theorem key_mem_paths_obj {k : String} {q : Path} {kvs : List (String × Json)} :
    (Seg.key k :: q) ∈ pathsOf (.obj kvs) ↔
      ∃ w, (k, w) ∈ kvs ∧ q ∈ pathsOf w := by
  rw [mem_pathsOf]
  constructor
  · rintro ⟨a, ha⟩
    rw [walkPairs_obj] at ha
    rcases List.mem_cons.mp ha with h | h
    · exact absurd (congrArg Prod.fst h) (by simp)
    · obtain ⟨⟨k', w⟩, hkv, q', b, heq, hqb⟩ := (mem_walkO _ _).mp h
      have h1 : Seg.key k :: q = Seg.key k' :: q' := congrArg Prod.fst heq
      injection h1 with hk hq
      injection hk with hkk
      subst hkk
      subst hq
      exact ⟨w, hkv, mem_pathsOf.mpr ⟨b, hqb⟩⟩
  · rintro ⟨w, hw, hq⟩
    obtain ⟨b, hb⟩ := mem_pathsOf.mp hq
    refine ⟨b, ?_⟩
    rw [walkPairs_obj]
    exact List.mem_cons_of_mem _ ((mem_walkO _ _).mpr ⟨(k, w), hw, q, b, rfl, hb⟩)

/-- An index-headed path is addressed in an array iff the index is in range
and the tail is addressed in that element. -/
theorem idx_mem_paths_arr {i : Nat} {q : Path} {xs : List Json} :
    (Seg.idx i :: q) ∈ pathsOf (.arr xs) ↔
      ∃ h : i < xs.length, q ∈ pathsOf xs[i] := by
  rw [mem_pathsOf]
  constructor
  · rintro ⟨a, ha⟩
    rw [walkPairs_arr] at ha
    rcases List.mem_cons.mp ha with h | h
    · exact absurd (congrArg Prod.fst h) (by simp)
    · obtain ⟨j, hj, q', b, heq, hqb⟩ := (mem_walkA _ _ _).mp h
      have h1 : Seg.idx i :: q = Seg.idx (0 + j) :: q' := congrArg Prod.fst heq
      injection h1 with hk hq
      injection hk with hkk
      subst hq
      have hij : i = j := by omega
      subst hij
      exact ⟨hj, mem_pathsOf.mpr ⟨b, hqb⟩⟩
  · rintro ⟨h, hq⟩
    obtain ⟨b, hb⟩ := mem_pathsOf.mp hq
    refine ⟨b, ?_⟩
    rw [walkPairs_arr]
    refine List.mem_cons_of_mem _ ((mem_walkA _ _ _).mpr ⟨i, h, q, b, ?_, hb⟩)
    rw [Nat.zero_add]

/-- A key-headed path can only be addressed in an object. -/
theorem key_mem_paths_shape {k : String} {q : Path} {v : Json}
    (h : (Seg.key k :: q) ∈ pathsOf v) : ∃ kvs, v = .obj kvs := by
  obtain ⟨a, ha⟩ := mem_pathsOf.mp h
  cases v with
  | obj kvs => exact ⟨kvs, rfl⟩
  | null => simp [walkPairs_null, Prod.ext_iff] at ha
  | bool b => simp [walkPairs_bool, Prod.ext_iff] at ha
  | num lit => simp [walkPairs_num, Prod.ext_iff] at ha
  | str s => simp [walkPairs_str, Prod.ext_iff] at ha
  | arr xs =>
    rw [walkPairs_arr] at ha
    rcases List.mem_cons.mp ha with h1 | h1
    · exact absurd (congrArg Prod.fst h1) (by simp)
    · obtain ⟨j, hj, q', b, heq, hqb⟩ := (mem_walkA _ _ _).mp h1
      have h2 : Seg.key k :: q = Seg.idx (0 + j) :: q' := congrArg Prod.fst heq
      injection h2 with hk hq
      injection hk

/-- An index-headed path can only be addressed in an array. -/
theorem idx_mem_paths_shape {i : Nat} {q : Path} {v : Json}
    (h : (Seg.idx i :: q) ∈ pathsOf v) : ∃ xs, v = .arr xs := by
  obtain ⟨a, ha⟩ := mem_pathsOf.mp h
  cases v with
  | arr xs => exact ⟨xs, rfl⟩
  | null => simp [walkPairs_null, Prod.ext_iff] at ha
  | bool b => simp [walkPairs_bool, Prod.ext_iff] at ha
  | num lit => simp [walkPairs_num, Prod.ext_iff] at ha
  | str s => simp [walkPairs_str, Prod.ext_iff] at ha
  | obj kvs =>
    rw [walkPairs_obj] at ha
    rcases List.mem_cons.mp ha with h1 | h1
    · exact absurd (congrArg Prod.fst h1) (by simp)
    · obtain ⟨kv, hkv, q', b, heq, hqb⟩ := (mem_walkO _ _).mp h1
      have h2 : Seg.idx i :: q = Seg.key kv.1 :: q' := congrArg Prod.fst heq
      injection h2 with hk hq
      injection hk

/-- Well-formedness of an array unpacked. -/
theorem validJson_arr_iff {xs : List Json} :
    validJson (.arr xs) = true ↔ ∀ x ∈ xs, validJson x = true := by
  show validArr xs = true ↔ _
  induction xs with
  | nil => simp [validArr]
  | cons x rest ih => simp [validArr, Bool.and_eq_true, ih]

/-- Well-formedness of an object unpacked. -/
theorem validJson_obj_iff {kvs : List (String × Json)} :
    validJson (.obj kvs) = true ↔
      (kvs.map Prod.fst).Nodup ∧ ∀ kv ∈ kvs, validJson kv.2 = true := by
  show validObj kvs = true ↔ _
  induction kvs with
  | nil => simp [validObj]
  | cons kv rest ih =>
    obtain ⟨k, w⟩ := kv
    simp only [validObj, Bool.and_eq_true, Bool.not_eq_true', decide_eq_false_iff_not, ih,
      List.map_cons, List.nodup_cons, List.forall_mem_cons]
    constructor
    · rintro ⟨⟨hnm, hvw⟩, hnd, hall⟩
      exact ⟨⟨hnm, hnd⟩, hvw, hall⟩
    · rintro ⟨⟨hnm, hnd⟩, hvw, hall⟩
      exact ⟨⟨hnm, hvw⟩, hnd, hall⟩

/-- With distinct keys, membership determines the lookup. -/
theorem lookup_eq_of_mem_nodup {kvs : List (String × Json)} {k : String} {w : Json}
    (hnd : (kvs.map Prod.fst).Nodup) (hmem : (k, w) ∈ kvs) :
    kvs.lookup k = some w := by
  induction kvs with
  | nil => cases hmem
  | cons kv rest ih =>
    obtain ⟨k', w'⟩ := kv
    simp only [List.map_cons, List.nodup_cons] at hnd
    rcases List.mem_cons.mp hmem with h | h
    · injection h with h1 h2
      subst h1
      subst h2
      simp [List.lookup]
    · have hk : k ≠ k' := by
        rintro rfl
        exact hnd.1 (List.mem_map.mpr ⟨(k, w), h, rfl⟩)
      have hbeq : (k == k') = false := beq_eq_false_iff_ne.mpr hk
      simp only [List.lookup, hbeq]
      exact ih hnd.2 h

/-- getP through an object key. -/
theorem getP_obj_key (kvs : List (String × Json)) (k : String) (q : Path) :
    getP (.obj kvs) (.key k :: q) = getP (lookupD kvs k) q := rfl

/-- getP through an array index. -/
theorem getP_arr_idx (xs : List Json) (i : Nat) (q : Path) :
    getP (.arr xs) (.idx i :: q) = getP (xs.getD i .null) q := rfl

/-- The value carried by a walker pair is the assigned value of the node the
path addresses. -/
theorem walkPairs_val : ∀ (v : Json), validJson v = true →
    ∀ {p : Path} {a : Json}, (p, a) ∈ walkPairs v → a = headVal (getP v p) := by
  intro v
  induction v using Json.indOn with
  | hnull =>
    intro _ p a h
    simp only [walkPairs_null, List.mem_singleton, Prod.mk.injEq] at h
    obtain ⟨rfl, rfl⟩ := h
    rfl
  | hbool b =>
    intro _ p a h
    simp only [walkPairs_bool, List.mem_singleton, Prod.mk.injEq] at h
    obtain ⟨rfl, rfl⟩ := h
    rfl
  | hnum lit =>
    intro _ p a h
    simp only [walkPairs_num, List.mem_singleton, Prod.mk.injEq] at h
    obtain ⟨rfl, rfl⟩ := h
    rfl
  | hstr s =>
    intro _ p a h
    simp only [walkPairs_str, List.mem_singleton, Prod.mk.injEq] at h
    obtain ⟨rfl, rfl⟩ := h
    rfl
  | harr xs ih =>
    intro hval p a h
    rw [walkPairs_arr] at h
    rcases List.mem_cons.mp h with h1 | h1
    · obtain ⟨rfl, rfl⟩ := Prod.mk.injEq .. ▸ h1
      rfl
    · obtain ⟨j, hj, q, b, heq, hqb⟩ := (mem_walkA _ _ _).mp h1
      obtain ⟨rfl, rfl⟩ := Prod.mk.injEq .. ▸ heq
      rw [getP_arr_idx]
      have hx : xs.getD (0 + j) .null = xs[j] := by
        rw [Nat.zero_add]
        exact List.getD_eq_getElem xs .null hj
      rw [hx]
      exact ih xs[j] (List.getElem_mem hj) (validJson_arr_iff.mp hval _ (List.getElem_mem hj)) hqb
  | hobj kvs ih =>
    intro hval p a h
    rw [walkPairs_obj] at h
    rcases List.mem_cons.mp h with h1 | h1
    · obtain ⟨rfl, rfl⟩ := Prod.mk.injEq .. ▸ h1
      rfl
    · obtain ⟨⟨k, w⟩, hkv, q, b, heq, hqb⟩ := (mem_walkO _ _).mp h1
      obtain ⟨rfl, rfl⟩ := Prod.mk.injEq .. ▸ heq
      rw [getP_obj_key]
      obtain ⟨hnd, hall⟩ := validJson_obj_iff.mp hval
      have hl : lookupD kvs k = w := by
        rw [lookupD, lookup_eq_of_mem_nodup hnd hkv]
        rfl
      rw [hl]
      exact ih (k, w) hkv (hall (k, w) hkv) hqb

/-- pathsOf is closed under taking prefixes. -/
theorem prefix_mem_pathsOf : ∀ (v : Json) {p r : Path},
    p ∈ pathsOf v → r <+: p → r ∈ pathsOf v := by
  intro v
  induction v using Json.indOn with
  | hnull =>
    intro p r hp hr
    simp only [show pathsOf .null = [[]] from rfl, List.mem_singleton] at hp ⊢
    subst hp
    exact List.prefix_nil.mp hr
  | hbool b =>
    intro p r hp hr
    simp only [show pathsOf (Json.bool b) = [[]] from rfl, List.mem_singleton] at hp ⊢
    subst hp
    exact List.prefix_nil.mp hr
  | hnum lit =>
    intro p r hp hr
    simp only [show pathsOf (Json.num lit) = [[]] from rfl, List.mem_singleton] at hp ⊢
    subst hp
    exact List.prefix_nil.mp hr
  | hstr s =>
    intro p r hp hr
    simp only [show pathsOf (Json.str s) = [[]] from rfl, List.mem_singleton] at hp ⊢
    subst hp
    exact List.prefix_nil.mp hr
  | harr xs ih =>
    intro p r hp hr
    cases r with
    | nil => exact nil_mem_pathsOf _
    | cons seg r' =>
      cases p with
      | nil =>
        have := List.prefix_nil.mp hr
        cases this
      | cons seg' q =>
        obtain ⟨hseg, hrq⟩ := List.cons_prefix_cons.mp hr
        subst hseg
        cases seg with
        | key k =>
          obtain ⟨kvs, hkvs⟩ := key_mem_paths_shape hp
          cases hkvs
        | idx i =>
          obtain ⟨hlt, hq⟩ := idx_mem_paths_arr.mp hp
          exact idx_mem_paths_arr.mpr
            ⟨hlt, ih xs[i] (List.getElem_mem hlt) hq hrq⟩
  | hobj kvs ih =>
    intro p r hp hr
    cases r with
    | nil => exact nil_mem_pathsOf _
    | cons seg r' =>
      cases p with
      | nil =>
        have := List.prefix_nil.mp hr
        cases this
      | cons seg' q =>
        obtain ⟨hseg, hrq⟩ := List.cons_prefix_cons.mp hr
        subst hseg
        cases seg with
        | idx i =>
          obtain ⟨xs, hxs⟩ := idx_mem_paths_shape hp
          cases hxs
        | key k =>
          obtain ⟨w, hw, hq⟩ := key_mem_paths_obj.mp hp
          exact key_mem_paths_obj.mpr ⟨w, hw, ih (k, w) hw hq hrq⟩

/-- Paths of an object in list form. -/
theorem pathsOf_obj (kvs : List (String × Json)) :
    pathsOf (.obj kvs) = [] :: (walkO kvs).map Prod.fst := rfl

/-- Paths of an array in list form. -/
theorem pathsOf_arr (xs : List Json) :
    pathsOf (.arr xs) = [] :: (walkA 0 xs).map Prod.fst := rfl

/-- Membership in the paths of the object walker helper. -/
theorem mem_fst_walkO {kvs : List (String × Json)} {q : Path} :
    q ∈ (walkO kvs).map Prod.fst ↔
      ∃ kv ∈ kvs, ∃ q', q = Seg.key kv.1 :: q' ∧ q' ∈ pathsOf kv.2 := by
  rw [List.mem_map]
  constructor
  · rintro ⟨pa, hpa, rfl⟩
    obtain ⟨kv, hkv, q', b, rfl, hqb⟩ := (mem_walkO _ _).mp hpa
    exact ⟨kv, hkv, q', rfl, mem_pathsOf.mpr ⟨b, hqb⟩⟩
  · rintro ⟨kv, hkv, q', rfl, hq'⟩
    obtain ⟨b, hb⟩ := mem_pathsOf.mp hq'
    exact ⟨(Seg.key kv.1 :: q', b), (mem_walkO _ _).mpr ⟨kv, hkv, q', b, rfl, hb⟩, rfl⟩

/-- Membership in the paths of the array walker helper. -/
theorem mem_fst_walkA {xs : List Json} {i : Nat} {q : Path} :
    q ∈ (walkA i xs).map Prod.fst ↔
      ∃ j, ∃ h : j < xs.length, ∃ q',
        q = Seg.idx (i + j) :: q' ∧ q' ∈ pathsOf xs[j] := by
  rw [List.mem_map]
  constructor
  · rintro ⟨pa, hpa, rfl⟩
    obtain ⟨j, hj, q', b, rfl, hqb⟩ := (mem_walkA _ _ _).mp hpa
    exact ⟨j, hj, q', rfl, mem_pathsOf.mpr ⟨b, hqb⟩⟩
  · rintro ⟨j, hj, q', rfl, hq'⟩
    obtain ⟨b, hb⟩ := mem_pathsOf.mp hq'
    exact ⟨(Seg.idx (i + j) :: q', b), (mem_walkA _ _ _).mpr ⟨j, hj, q', b, rfl, hb⟩, rfl⟩

/-- The walker addresses distinct paths on a well-formed value. -/
theorem pathsOf_nodup : ∀ (v : Json), validJson v = true → (pathsOf v).Nodup := by
  intro v
  induction v using Json.indOn with
  | hnull => intro _; simp [show pathsOf .null = [[]] from rfl]
  | hbool b => intro _; simp [show pathsOf (Json.bool b) = [[]] from rfl]
  | hnum lit => intro _; simp [show pathsOf (Json.num lit) = [[]] from rfl]
  | hstr s => intro _; simp [show pathsOf (Json.str s) = [[]] from rfl]
  | harr xs ih =>
    intro hval
    rw [pathsOf_arr, List.nodup_cons]
    have hvx := validJson_arr_iff.mp hval
    constructor
    · intro hmem
      obtain ⟨j, hj, q', heq, _⟩ := mem_fst_walkA.mp hmem
      cases heq
    · have aux : ∀ (ys : List Json), (∀ x ∈ ys, (pathsOf x).Nodup) →
          ∀ i, ((walkA i ys).map Prod.fst).Nodup := by
        intro ys
        induction ys with
        | nil => intro _ i; simp [walkA]
        | cons x rest ihr =>
          intro hys i
          rw [walkA, List.map_append, List.nodup_append]
          refine ⟨?_, ihr (fun y hy => hys y (List.mem_cons_of_mem _ hy)) (i + 1), ?_⟩
          · rw [List.map_map]
            have : (Prod.fst ∘ fun pa : Path × Json => (Seg.idx i :: pa.1, pa.2))
                = (fun q => Seg.idx i :: q) ∘ Prod.fst := rfl
            rw [this, ← List.map_map]
            exact (hys x (List.mem_cons_self _ _)).map
              (fun q q' h => by injection h)
          · intro q hq1 hq2
            rw [List.map_map] at hq1
            obtain ⟨pa, hpa, rfl⟩ := List.mem_map.mp hq1
            obtain ⟨j, hj, q', heq, _⟩ := mem_fst_walkA.mp hq2
            have heq2 : Seg.idx i :: pa.1 = Seg.idx (i + 1 + j) :: q' := heq
            injection heq2 with hseg _
            injection hseg with hii
            omega
      exact aux xs (fun x hx => ih x hx (hvx x hx)) 0
  | hobj kvs ih =>
    intro hval
    rw [pathsOf_obj, List.nodup_cons]
    obtain ⟨hnd, hvw⟩ := validJson_obj_iff.mp hval
    constructor
    · intro hmem
      obtain ⟨kv, hkv, q', heq, _⟩ := mem_fst_walkO.mp hmem
      cases heq
    · have aux : ∀ (ys : List (String × Json)), (ys.map Prod.fst).Nodup →
          (∀ kv ∈ ys, (pathsOf kv.2).Nodup) →
          ((walkO ys).map Prod.fst).Nodup := by
        intro ys
        induction ys with
        | nil => intro _ _; simp [walkO]
        | cons kv rest ihr =>
          obtain ⟨k, w⟩ := kv
          intro hnd2 hys
          simp only [List.map_cons, List.nodup_cons] at hnd2
          rw [walkO, List.map_append, List.nodup_append]
          refine ⟨?_, ihr hnd2.2 (fun y hy => hys y (List.mem_cons_of_mem _ hy)), ?_⟩
          · rw [List.map_map]
            have : (Prod.fst ∘ fun pa : Path × Json => (Seg.key k :: pa.1, pa.2))
                = (fun q => Seg.key k :: q) ∘ Prod.fst := rfl
            rw [this, ← List.map_map]
            exact (hys (k, w) (List.mem_cons_self _ _)).map
              (fun q q' h => by injection h)
          · intro q hq1 hq2
            rw [List.map_map] at hq1
            obtain ⟨pa, hpa, rfl⟩ := List.mem_map.mp hq1
            obtain ⟨kv', hkv', q', heq, _⟩ := mem_fst_walkO.mp hq2
            have heq2 : Seg.key k :: pa.1 = Seg.key kv'.1 :: q' := heq
            injection heq2 with hseg _
            injection hseg with hkk
            exact hnd2.1 (List.mem_map.mpr ⟨kv', hkv', hkk.symm⟩)
      exact aux kvs hnd (fun kv hkv => ih kv hkv (hvw kv hkv))

/-- The assigned-value token of a node equals that of its headVal. -/
theorem valTok_headVal : ∀ v : Json, valTok (headVal v) = valTok v := by
  intro v
  cases v with
  | bool b => cases b <;> rfl
  | _ => rfl

/-- Decoding the value token of an assigned value gives it back: assigned
values are leaves or empty containers. -/
theorem tokValue_valTok_headVal : ∀ w : Json,
    tokValue (valTok (headVal w)) = some (headVal w) := by
  intro w
  cases w with
  | bool b => cases b <;> rfl
  | _ => rfl

/-- pathToks distributes over path append. -/
theorem pathToks_append : ∀ p q : Path, pathToks (p ++ q) = pathToks p ++ pathToks q := by
  intro p q
  induction p with
  | nil => rfl
  | cons seg p' ih =>
    cases seg with
    | key k => simp [pathToks, ih, List.append_assoc]
    | idx i => simp [pathToks, ih, List.append_assoc]

/-- The token walker is the pair walker rendered into statements. -/
theorem stmts_map : ∀ (v : Json) (pfx : Stmt),
    statementsFromJSON pfx v
      = (walkPairs v).map
          (fun pa => pfx ++ (pathToks pa.1 ++ [.equals, valTok pa.2, .semi])) := by
  intro v
  induction v using Json.indOn with
  | hnull => intro pfx; rfl
  | hbool b => intro pfx; cases b <;> rfl
  | hnum lit => intro pfx; rfl
  | hstr s => intro pfx; rfl
  | harr xs ih =>
    intro pfx
    rw [show statementsFromJSON pfx (.arr xs)
        = (pfx ++ [.equals, .emptyArr, .semi]) :: stmtsArr pfx 0 xs from rfl]
    rw [walkPairs_arr, List.map_cons]
    have aux : ∀ (ys : List Json),
        (∀ x ∈ ys, ∀ pfx1, statementsFromJSON pfx1 x = (walkPairs x).map
          (fun pa => pfx1 ++ (pathToks pa.1 ++ [.equals, valTok pa.2, .semi]))) →
        ∀ i, stmtsArr pfx i ys = (walkA i ys).map
          (fun pa => pfx ++ (pathToks pa.1 ++ [.equals, valTok pa.2, .semi])) := by
      intro ys hys
      induction ys with
      | nil => intro i; rfl
      | cons x rest ihr =>
        intro i
        rw [show stmtsArr pfx i (x :: rest)
            = statementsFromJSON (pfx ++ idxToks i) x ++ stmtsArr pfx (i + 1) rest from rfl]
        rw [show walkA i (x :: rest)
            = (walkPairs x).map (fun pa => (Seg.idx i :: pa.1, pa.2)) ++ walkA (i + 1) rest
            from rfl]
        rw [List.map_append, hys x (List.mem_cons_self _ _) (pfx ++ idxToks i),
          ihr (fun y hy => hys y (List.mem_cons_of_mem _ hy)) (i + 1), List.map_map]
        refine congrArg (· ++ _) (List.map_congr_left fun pa hpa => ?_)
        simp [Function.comp, pathToks, List.append_assoc]
    rw [aux xs (fun x hx => ih x hx) 0]
    rfl
  | hobj kvs ih =>
    intro pfx
    rw [show statementsFromJSON pfx (.obj kvs)
        = (pfx ++ [.equals, .emptyObj, .semi]) :: stmtsObj pfx kvs from rfl]
    rw [walkPairs_obj, List.map_cons]
    have aux : ∀ (ys : List (String × Json)),
        (∀ kv ∈ ys, ∀ pfx1, statementsFromJSON pfx1 kv.2 = (walkPairs kv.2).map
          (fun pa => pfx1 ++ (pathToks pa.1 ++ [.equals, valTok pa.2, .semi]))) →
        stmtsObj pfx ys = (walkO ys).map
          (fun pa => pfx ++ (pathToks pa.1 ++ [.equals, valTok pa.2, .semi])) := by
      intro ys hys
      induction ys with
      | nil => rfl
      | cons kv rest ihr =>
        obtain ⟨k, w⟩ := kv
        rw [show stmtsObj pfx ((k, w) :: rest)
            = statementsFromJSON (pfx ++ keyToks k) w ++ stmtsObj pfx rest from rfl]
        rw [show walkO ((k, w) :: rest)
            = (walkPairs w).map (fun pa => (Seg.key k :: pa.1, pa.2)) ++ walkO rest
            from rfl]
        rw [List.map_append, hys (k, w) (List.mem_cons_self _ _) (pfx ++ keyToks k),
          ihr (fun y hy => hys y (List.mem_cons_of_mem _ hy)), List.map_map]
        refine congrArg (· ++ _) (List.map_congr_left fun pa hpa => ?_)
        simp [Function.comp, pathToks, List.append_assoc]
    rw [aux kvs (fun kv hkv => ih kv hkv)]
    rfl

/-- The merger's token walk on a rendered path acts as the pair-level insert. -/
theorem ungron_pathToks : ∀ (p : Path) (t a : Json),
    tokValue (valTok a) = some a →
    ungronTokens t (pathToks p ++ [.equals, valTok a, .semi]) = insertP t p a := by
  intro p
  induction p with
  | nil =>
    intro t a ha
    rw [show pathToks [] ++ [Tok.equals, valTok a, .semi]
        = [Tok.equals, valTok a, .semi] from rfl]
    rw [show ungronTokens t [Tok.equals, valTok a, .semi]
        = (match tokValue (valTok a) with
           | some a' => Except.ok a'
           | none => Except.error UngronError.malformed) from rfl]
    rw [ha]
    rfl
  | cons seg p' ih =>
    intro t a ha
    cases seg with
    | key k =>
      by_cases hq : keyMustBeQuoted k
      · have h1 : pathToks (Seg.key k :: p') ++ [Tok.equals, valTok a, .semi]
            = .lbrace :: .quotedKey k :: .rbrace ::
              (pathToks p' ++ [Tok.equals, valTok a, .semi]) := by
          simp [pathToks, keyToks, hq]
        rw [h1]
        rw [show ungronTokens t (.lbrace :: .quotedKey k :: .rbrace ::
              (pathToks p' ++ [Tok.equals, valTok a, .semi]))
            = (match coerceObj t with
               | none => Except.error .typeConflict
               | some kvs =>
                 (ungronTokens (lookupD kvs k)
                     (pathToks p' ++ [Tok.equals, valTok a, .semi])).map
                   fun w => .obj (setKV kvs k w)) from rfl]
        rw [show insertP t (Seg.key k :: p') a
            = (match coerceObj t with
               | none => Except.error .typeConflict
               | some kvs => (insertP (lookupD kvs k) p' a).map
                   fun w => .obj (setKV kvs k w)) from rfl]
        cases hco : coerceObj t with
        | none => rfl
        | some kvs =>
          show Except.map (fun w => Json.obj (setKV kvs k w))
              (ungronTokens (lookupD kvs k) (pathToks p' ++ [Tok.equals, valTok a, Tok.semi]))
            = Except.map (fun w => Json.obj (setKV kvs k w)) (insertP (lookupD kvs k) p' a)
          rw [ih _ _ ha]
      · have h1 : pathToks (Seg.key k :: p') ++ [Tok.equals, valTok a, .semi]
            = .dot :: .bare k :: (pathToks p' ++ [Tok.equals, valTok a, .semi]) := by
          simp [pathToks, keyToks, hq]
        rw [h1]
        rw [show ungronTokens t (.dot :: .bare k ::
              (pathToks p' ++ [Tok.equals, valTok a, .semi]))
            = (match coerceObj t with
               | none => Except.error .typeConflict
               | some kvs =>
                 (ungronTokens (lookupD kvs k)
                     (pathToks p' ++ [Tok.equals, valTok a, .semi])).map
                   fun w => .obj (setKV kvs k w)) from rfl]
        rw [show insertP t (Seg.key k :: p') a
            = (match coerceObj t with
               | none => Except.error .typeConflict
               | some kvs => (insertP (lookupD kvs k) p' a).map
                   fun w => .obj (setKV kvs k w)) from rfl]
        cases hco : coerceObj t with
        | none => rfl
        | some kvs =>
          show Except.map (fun w => Json.obj (setKV kvs k w))
              (ungronTokens (lookupD kvs k) (pathToks p' ++ [Tok.equals, valTok a, Tok.semi]))
            = Except.map (fun w => Json.obj (setKV kvs k w)) (insertP (lookupD kvs k) p' a)
          rw [ih _ _ ha]
    | idx i =>
      have h1 : pathToks (Seg.idx i :: p') ++ [Tok.equals, valTok a, .semi]
          = .lbrace :: .numKey i :: .rbrace ::
            (pathToks p' ++ [Tok.equals, valTok a, .semi]) := by
        simp [pathToks, idxToks]
      rw [h1]
      rw [show ungronTokens t (.lbrace :: .numKey i :: .rbrace ::
            (pathToks p' ++ [Tok.equals, valTok a, .semi]))
          = (match coerceArr t with
             | none => Except.error .typeConflict
             | some xs =>
               (ungronTokens ((padTo (i + 1) xs).getD i .null)
                   (pathToks p' ++ [Tok.equals, valTok a, .semi])).map
                 fun w => .arr ((padTo (i + 1) xs).set i w)) from rfl]
      rw [show insertP t (Seg.idx i :: p') a
          = (match coerceArr t with
             | none => Except.error .typeConflict
             | some xs => (insertP ((padTo (i + 1) xs).getD i .null) p' a).map
                 fun w => .arr ((padTo (i + 1) xs).set i w)) from rfl]
      cases hco : coerceArr t with
      | none => rfl
      | some xs =>
        show Except.map (fun w => Json.arr ((padTo (i + 1) xs).set i w))
            (ungronTokens ((padTo (i + 1) xs).getD i .null)
              (pathToks p' ++ [Tok.equals, valTok a, Tok.semi]))
          = Except.map (fun w => Json.arr ((padTo (i + 1) xs).set i w))
              (insertP ((padTo (i + 1) xs).getD i .null) p' a)
        rw [ih _ _ ha]

/-- Merging the statement of a pair under root json is the pair-level insert
under the json key. -/
theorem mergeStmt_pair (t : Json) (pa : Path × Json)
    (ha : tokValue (valTok pa.2) = some pa.2) :
    mergeStmt t (stmtOfPair "json" pa) = insertP t (Seg.key "json" :: pa.1) pa.2 := by
  rw [show stmtOfPair "json" pa
      = .bare "json" :: (pathToks pa.1 ++ [.equals, valTok pa.2, .semi]) from rfl]
  rw [show mergeStmt t (.bare "json" :: (pathToks pa.1 ++ [.equals, valTok pa.2, .semi]))
      = (match coerceObj t with
         | none => Except.error .typeConflict
         | some kvs =>
           (ungronTokens (lookupD kvs "json")
               (pathToks pa.1 ++ [.equals, valTok pa.2, .semi])).map
             fun w => .obj (setKV kvs "json" w)) from rfl]
  rw [show insertP t (Seg.key "json" :: pa.1) pa.2
      = (match coerceObj t with
         | none => Except.error .typeConflict
         | some kvs => (insertP (lookupD kvs "json") pa.1 pa.2).map
             fun w => .obj (setKV kvs "json" w)) from rfl]
  cases hco : coerceObj t with
  | none => rfl
  | some kvs =>
    show Except.map (fun w => Json.obj (setKV kvs "json" w))
        (ungronTokens (lookupD kvs "json")
          (pathToks pa.1 ++ [.equals, valTok pa.2, .semi]))
      = Except.map (fun w => Json.obj (setKV kvs "json" w))
          (insertP (lookupD kvs "json") pa.1 pa.2)
    rw [ungron_pathToks _ _ _ ha]

/-- Folding the merger over rendered pair statements is folding the
pair-level insert over the pairs. -/
theorem merge_eq_foldIns : ∀ (ps : List (Path × Json)) (t : Json),
    (∀ pa ∈ ps, tokValue (valTok pa.2) = some pa.2) →
    List.foldlM mergeStmt t (ps.map (stmtOfPair "json"))
      = List.foldlM (fun t' pa => insertP t' (Seg.key "json" :: pa.1) pa.2) t ps := by
  intro ps
  induction ps with
  | nil => intro t _; rfl
  | cons pa rest ih =>
    intro t hall
    rw [List.map_cons, List.foldlM_cons, List.foldlM_cons,
      mergeStmt_pair t pa (hall pa (List.mem_cons_self _ _))]
    cases h : insertP t (Seg.key "json" :: pa.1) pa.2 with
    | error e => rfl
    | ok t' =>
      show Except.bind (Except.ok t') _ = Except.bind (Except.ok t') _
      rw [show ∀ (f : Json → Except UngronError Json), Except.bind (Except.ok t') f = f t'
          from fun f => rfl]
      rw [show ∀ (f : Json → Except UngronError Json), Except.bind (Except.ok t') f = f t'
          from fun f => rfl]
      exact ih t' (fun pb hb => hall pb (List.mem_cons_of_mem _ hb))

/-! ### Restriction lemmas (intermediate merge states) -/

/-- restrict on the empty path collection. -/
theorem restrict_nil (v : Json) : restrict v [] = .null := by
  rw [restrict.eq_def]
  simp

/-- restrict on an object with a nonempty path collection. -/
theorem restrict_obj {S : List Path} (hS : S ≠ []) (kvs : List (String × Json)) :
    restrict (.obj kvs) S
      = .obj (reorder (headKeys S)
          (kvs.map fun kv => (kv.1, restrict kv.2 (residKey kv.1 S)))) := by
  rw [restrict.eq_def, if_neg hS]
  exact congrArg Json.obj (congrArg (reorder (headKeys S))
    (List.attach_map_coe kvs (fun kv => (kv.1, restrict kv.2 (residKey kv.1 S)))))

/-- restrict on an array with a nonempty path collection. -/
theorem restrict_arr {S : List Path} (hS : S ≠ []) (xs : List Json) :
    restrict (.arr xs) S
      = .arr ((List.range (maxIdx S)).map fun i =>
          if h : i < xs.length then restrict xs[i] (residIdx i S) else .null) := by
  rw [restrict.eq_def, if_neg hS]

/-- restrict on null with a nonempty path collection. -/
theorem restrict_null {S : List Path} (hS : S ≠ []) : restrict .null S = .null := by
  rw [restrict.eq_def, if_neg hS]

/-- restrict on a boolean with a nonempty path collection. -/
theorem restrict_bool {S : List Path} (hS : S ≠ []) (b : Bool) :
    restrict (.bool b) S = .bool b := by
  rw [restrict.eq_def, if_neg hS]

/-- restrict on a number with a nonempty path collection. -/
theorem restrict_num {S : List Path} (hS : S ≠ []) (lit : String) :
    restrict (.num lit) S = .num lit := by
  rw [restrict.eq_def, if_neg hS]

/-- restrict on a string with a nonempty path collection. -/
theorem restrict_str {S : List Path} (hS : S ≠ []) (s : String) :
    restrict (.str s) S = .str s := by
  rw [restrict.eq_def, if_neg hS]

/-- Membership in dedupF. -/
theorem mem_dedupF {x : String} : ∀ {l : List String}, x ∈ dedupF l ↔ x ∈ l := by
  intro l
  induction l with
  | nil => simp [dedupF]
  | cons k ks ih =>
    simp only [dedupF, List.mem_cons, List.mem_filter, ih, bne_iff_ne]
    by_cases hx : x = k
    · simp [hx]
    · simp [hx]

/-- dedupF has no duplicates. -/
theorem dedupF_nodup : ∀ l : List String, (dedupF l).Nodup := by
  intro l
  induction l with
  | nil => simp [dedupF]
  | cons k ks ih =>
    rw [dedupF, List.nodup_cons]
    refine ⟨fun hmem => ?_, ih.filter _⟩
    have := (List.mem_filter.mp hmem).2
    simp at this

/-- dedupF keeps first occurrences: appending a key extends the key order at
the end exactly when the key is new. -/
theorem dedupF_append_singleton : ∀ (l : List String) (k : String),
    dedupF (l ++ [k]) = if k ∈ l then dedupF l else dedupF l ++ [k] := by
  intro l k
  induction l with
  | nil => simp [dedupF]
  | cons a as ih =>
    rw [List.cons_append, dedupF, ih, dedupF]
    by_cases hk : k ∈ as
    · rw [if_pos hk, if_pos (List.mem_cons_of_mem a hk)]
    · by_cases hak : k = a
      · subst hak
        rw [if_neg hk, if_pos (List.mem_cons_self k as), List.filter_append]
        have h2 : List.filter (fun x => x != k) [k] = [] := by simp
        rw [h2, List.append_nil]
      · have h1 : k ∉ a :: as := by simp [List.mem_cons, hak, hk]
        rw [if_neg hk, if_neg h1, List.filter_append]
        have h2 : List.filter (fun x => x != a) [k] = [k] := by simp [bne_iff_ne, hak]
        rw [h2]
        rfl

/-- Membership in headKeys. -/
theorem mem_headKeys {k : String} {S : List Path} :
    k ∈ headKeys S ↔ ∃ q, Seg.key k :: q ∈ S := by
  rw [headKeys, mem_dedupF, List.mem_filterMap]
  constructor
  · rintro ⟨p, hp, hk⟩
    match p, hk with
    | .key k' :: q, hk =>
      injection hk with hk
      subst hk
      exact ⟨q, hp⟩
  · rintro ⟨q, hq⟩
    exact ⟨_, hq, rfl⟩

/-- headKeys after appending a key-headed path. -/
theorem headKeys_append_key {S : List Path} {k : String} {q : Path} :
    headKeys (S ++ [Seg.key k :: q])
      = if k ∈ headKeys S then headKeys S else headKeys S ++ [k] := by
  rw [headKeys, List.filterMap_append]
  rw [show List.filterMap headKeyOf [Seg.key k :: q] = [k] from rfl]
  rw [dedupF_append_singleton]
  by_cases hk : k ∈ headKeys S
  · rw [if_pos (mem_dedupF.mp hk), if_pos hk]
    rfl
  · rw [if_neg (fun h => hk (mem_dedupF.mpr h)), if_neg hk]
    rfl

/-- headKeys ignores an appended index-headed path. -/
theorem headKeys_append_idx {S : List Path} {i : Nat} {q : Path} :
    headKeys (S ++ [Seg.idx i :: q]) = headKeys S := by
  rw [headKeys, List.filterMap_append]
  rw [show List.filterMap headKeyOf [Seg.idx i :: q] = [] from rfl]
  rw [List.append_nil, headKeys]

/-- Membership in a key residual. -/
theorem mem_residKey {k : String} {S : List Path} {q : Path} :
    q ∈ residKey k S ↔ Seg.key k :: q ∈ S := by
  rw [residKey, List.mem_filterMap]
  constructor
  · rintro ⟨p, hp, hpq⟩
    match p, hpq with
    | .key k' :: q', hpq =>
      by_cases hkk : k' = k
      · simp only [hkk, if_pos] at hpq
        injection hpq with hpq
        subst hpq
        subst hkk
        exact hp
      · simp [hkk] at hpq
  · intro hq
    refine ⟨Seg.key k :: q, hq, ?_⟩
    simp

/-- Membership in an index residual. -/
theorem mem_residIdx {i : Nat} {S : List Path} {q : Path} :
    q ∈ residIdx i S ↔ Seg.idx i :: q ∈ S := by
  rw [residIdx, List.mem_filterMap]
  constructor
  · rintro ⟨p, hp, hpq⟩
    match p, hpq with
    | .idx j :: q', hpq =>
      by_cases hj : j = i
      · simp only [hj, if_pos] at hpq
        injection hpq with hpq
        subst hpq
        subst hj
        exact hp
      · simp [hj] at hpq
  · intro hq
    refine ⟨Seg.idx i :: q, hq, ?_⟩
    simp

/-- Key residual after appending a path with the same key head. -/
theorem residKey_append_same (k : String) (S : List Path) (q : Path) :
    residKey k (S ++ [Seg.key k :: q]) = residKey k S ++ [q] := by
  rw [residKey, List.filterMap_append, residKey]
  congr 1
  simp

/-- Key residual is untouched by appending a path with a different head. -/
theorem residKey_append_other {k : String} (S : List Path) {p : Path}
    (h : ∀ q, p ≠ Seg.key k :: q) : residKey k (S ++ [p]) = residKey k S := by
  rw [residKey, List.filterMap_append, residKey]
  have : List.filterMap (fun p =>
      match p with
      | .key k' :: q => if k' = k then some q else none
      | _ => none) [p] = [] := by
    match p with
    | [] => rfl
    | .idx j :: q => rfl
    | .key k' :: q =>
      have hk : k' ≠ k := fun hkk => h q (by rw [hkk])
      simp [hk]
  rw [this, List.append_nil]

/-- Index residual after appending a path with the same index head. -/
theorem residIdx_append_same (i : Nat) (S : List Path) (q : Path) :
    residIdx i (S ++ [Seg.idx i :: q]) = residIdx i S ++ [q] := by
  rw [residIdx, List.filterMap_append, residIdx]
  congr 1
  simp

/-- Index residual is untouched by appending a path with a different head. -/
theorem residIdx_append_other {i : Nat} (S : List Path) {p : Path}
    (h : ∀ q, p ≠ Seg.idx i :: q) : residIdx i (S ++ [p]) = residIdx i S := by
  rw [residIdx, List.filterMap_append, residIdx]
  have : List.filterMap (fun p =>
      match p with
      | .idx j :: q => if j = i then some q else none
      | _ => none) [p] = [] := by
    match p with
    | [] => rfl
    | .key k :: q => rfl
    | .idx j :: q =>
      have hj : j ≠ i := fun hjj => h q (by rw [hjj])
      simp [hj]
  rw [this, List.append_nil]

/-- Folding max with a nonzero seed. -/
theorem foldr_max_init : ∀ (l : List Nat) (n : Nat),
    l.foldr max n = max (l.foldr max 0) n := by
  intro l n
  induction l with
  | nil => simp
  | cons a as ih => simp [List.foldr_cons, ih, Nat.max_assoc]

/-- maxIdx after appending one path. -/
theorem maxIdx_append (S : List Path) (p : Path) :
    maxIdx (S ++ [p]) = max (maxIdx S) ((headIdxBound p).getD 0) := by
  rw [maxIdx, List.filterMap_append, List.foldr_append, maxIdx]
  cases hp : headIdxBound p with
  | none =>
    rw [show List.filterMap headIdxBound [p] = [] from by simp [hp]]
    simp
  | some n =>
    rw [show List.filterMap headIdxBound [p] = [n] from by simp [hp]]
    simp only [List.foldr_cons, List.foldr_nil, Option.getD_some]
    rw [foldr_max_init]
    omega

/-- Every addressed index stays below maxIdx. -/
theorem le_maxIdx_of_mem {S : List Path} {i : Nat} {q : Path}
    (h : Seg.idx i :: q ∈ S) : i + 1 ≤ maxIdx S := by
  have hmem : (i + 1) ∈ S.filterMap headIdxBound :=
    List.mem_filterMap.mpr ⟨_, h, rfl⟩
  rw [maxIdx]
  have aux : ∀ (l : List Nat) (n : Nat), n ∈ l → n ≤ l.foldr max 0 := by
    intro l
    induction l with
    | nil => intro n h; cases h
    | cons a as ih =>
      intro n hn
      rcases List.mem_cons.mp hn with h1 | h1
      · subst h1
        simp only [List.foldr_cons]
        omega
      · have := ih n h1
        simp only [List.foldr_cons]
        omega
  exact aux _ _ hmem

/-- maxIdx is the least bound of the addressed indices. -/
theorem maxIdx_le {S : List Path} {m : Nat}
    (h : ∀ i q, Seg.idx i :: q ∈ S → i + 1 ≤ m) : maxIdx S ≤ m := by
  rw [maxIdx]
  have aux : ∀ (l : List Nat), (∀ n ∈ l, n ≤ m) → l.foldr max 0 ≤ m := by
    intro l
    induction l with
    | nil => intro _; simp
    | cons a as ih =>
      intro hl
      simp only [List.foldr_cons]
      have h1 := hl a (List.mem_cons_self _ _)
      have h2 := ih (fun n hn => hl n (List.mem_cons_of_mem _ hn))
      omega
  refine aux _ fun n hn => ?_
  obtain ⟨p, hp, hpn⟩ := List.mem_filterMap.mp hn
  match p, hpn with
  | .idx i :: q, hpn =>
    injection hpn with hpn
    subst hpn
    exact h i q hp

/-- reorder unfolding on a cons key list. -/
theorem reorder_cons (k : String) (ks : List String) (l : List (String × Json)) :
    reorder (k :: ks) l
      = match l.lookup k with
        | none => reorder ks l
        | some w => (k, w) :: reorder ks l := by
  rw [reorder, List.filterMap_cons]
  cases h : l.lookup k <;> simp [h, reorder]

/-- reorder only depends on the lookups at its keys. -/
theorem reorder_congr {ks : List String} {l l' : List (String × Json)}
    (h : ∀ k ∈ ks, l.lookup k = l'.lookup k) : reorder ks l = reorder ks l' := by
  induction ks with
  | nil => rfl
  | cons k ks ih =>
    rw [reorder_cons, reorder_cons, h k (List.mem_cons_self _ _),
      ih (fun k' hk' => h k' (List.mem_cons_of_mem _ hk'))]

/-- reorder distributes over key-list append. -/
theorem reorder_append_keys (ks ks' : List String) (l : List (String × Json)) :
    reorder (ks ++ ks') l = reorder ks l ++ reorder ks' l :=
  List.filterMap_append _ _ _

/-- Entries of a reorder carry keys from the key list. -/
theorem mem_reorder_keys {ks : List String} {l : List (String × Json)}
    {pa : String × Json} (h : pa ∈ reorder ks l) : pa.1 ∈ ks := by
  obtain ⟨k, hk, hpa⟩ := List.mem_filterMap.mp h
  cases hl : l.lookup k with
  | none => rw [hl] at hpa; cases hpa
  | some w =>
    rw [hl] at hpa
    injection hpa with hpa
    rw [← hpa]
    exact hk

/-- Lookup misses in a reorder when the key list misses the key. -/
theorem lookup_reorder_not_mem : ∀ {ks : List String} {l : List (String × Json)}
    {k : String}, k ∉ ks → (reorder ks l).lookup k = none := by
  intro ks
  induction ks with
  | nil => intro l k _; rfl
  | cons a ks ih =>
    intro l k h
    have hka : k ≠ a := fun hk => h (hk ▸ List.mem_cons_self a ks)
    have hne : k ∉ ks := fun hk => h (List.mem_cons_of_mem _ hk)
    rw [reorder_cons]
    cases hl : l.lookup a with
    | none => exact ih hne
    | some w =>
      have hbe : (k == a) = false := beq_eq_false_iff_ne.mpr hka
      simp only [List.lookup, hbe]
      exact ih hne

/-- Lookup in a reorder agrees with the underlying list on its (distinct)
keys. -/
theorem lookup_reorder_mem : ∀ {ks : List String} {l : List (String × Json)}
    {k : String}, ks.Nodup → k ∈ ks → (reorder ks l).lookup k = l.lookup k := by
  intro ks
  induction ks with
  | nil => intro l k _ h; cases h
  | cons a ks ih =>
    intro l k hnd h
    obtain ⟨ha, hnd2⟩ := List.nodup_cons.mp hnd
    rw [reorder_cons]
    by_cases hka : k = a
    · subst hka
      cases hl : l.lookup k with
      | none => exact lookup_reorder_not_mem ha
      | some w => simp [List.lookup]
    · have hk2 : k ∈ ks := (List.mem_cons.mp h).resolve_left hka
      cases hl : l.lookup a with
      | none => exact ih hnd2 hk2
      | some w =>
        have hbe : (k == a) = false := beq_eq_false_iff_ne.mpr hka
        simp only [List.lookup, hbe]
        exact ih hnd2 hk2

/-- Lookup in an entrywise-mapped association list. -/
theorem lookup_map_keyed : ∀ (kvs : List (String × Json))
    (g : String → Json → Json) (k : String),
    (kvs.map fun kv => (kv.1, g kv.1 kv.2)).lookup k = (kvs.lookup k).map (g k) := by
  intro kvs g k
  induction kvs with
  | nil => rfl
  | cons kv rest ih =>
    obtain ⟨k', w'⟩ := kv
    rw [List.map_cons]
    cases hbe : (k == k') with
    | true =>
      have hk : k = k' := eq_of_beq hbe
      subst hk
      simp [List.lookup]
    | false => simp only [List.lookup, hbe]; exact ih

/-- setKV appends when the key is absent. -/
theorem setKV_of_not_mem : ∀ {l : List (String × Json)} {k : String} (w : Json),
    k ∉ l.map Prod.fst → setKV l k w = l ++ [(k, w)] := by
  intro l
  induction l with
  | nil => intro k w _; rfl
  | cons kv rest ih =>
    obtain ⟨k', w'⟩ := kv
    intro k w h
    simp only [List.map_cons, List.mem_cons] at h
    push_neg at h
    rw [show setKV ((k', w') :: rest) k w
        = if k' = k then (k, w) :: rest else (k', w') :: setKV rest k w from rfl]
    rw [if_neg (fun hk => h.1 hk.symm), ih w h.2]
    rfl

/-- setKV on a reorder over a key present in the key list replaces the entry
in place, yielding the reorder over the updated association list. -/
theorem setKV_reorder : ∀ {ks : List String} {M M' : List (String × Json)}
    {k : String} {w : Json},
    ks.Nodup →
    (∀ k' ∈ ks, k' ≠ k → M'.lookup k' = M.lookup k') →
    (∃ w0, M.lookup k = some w0) →
    M'.lookup k = some w →
    k ∈ ks →
    setKV (reorder ks M) k w = reorder ks M' := by
  intro ks
  induction ks with
  | nil => intro M M' k w _ _ _ _ h; cases h
  | cons a ks ih =>
    intro M M' k w hnd hsame hMk hMk' hk
    obtain ⟨ha, hnd2⟩ := List.nodup_cons.mp hnd
    by_cases hak : a = k
    · subst hak
      obtain ⟨w0, hw0⟩ := hMk
      rw [reorder_cons, reorder_cons, hw0, hMk']
      rw [show setKV ((a, w0) :: reorder ks M) a w = (a, w) :: reorder ks M from by
        simp [setKV]]
      congr 1
      exact (reorder_congr (fun k' hk' =>
        hsame k' (List.mem_cons_of_mem _ hk') (ne_of_mem_of_not_mem hk' ha))).symm
    · have hk2 : k ∈ ks := (List.mem_cons.mp hk).resolve_left (fun h => hak h.symm)
      rw [reorder_cons, reorder_cons, hsame a (List.mem_cons_self _ _) hak]
      cases hla : M.lookup a with
      | none =>
        exact ih hnd2 (fun k' h1 h2 => hsame k' (List.mem_cons_of_mem _ h1) h2) hMk hMk' hk2
      | some wa =>
        rw [show setKV ((a, wa) :: reorder ks M) k w
            = (a, wa) :: setKV (reorder ks M) k w from by simp [setKV, hak]]
        congr 1
        exact ih hnd2 (fun k' h1 h2 => hsame k' (List.mem_cons_of_mem _ h1) h2) hMk hMk' hk2

/-- Restricting to just the node's own path gives its assigned value. -/
theorem restrict_single_nil : ∀ w : Json, restrict w [([] : Path)] = headVal w := by
  intro w
  have hne : [([] : Path)] ≠ [] := by simp
  cases w with
  | null => rw [restrict_null hne]; rfl
  | bool b => rw [restrict_bool hne]; rfl
  | num lit => rw [restrict_num hne]; rfl
  | str s => rw [restrict_str hne]; rfl
  | arr xs =>
    rw [restrict_arr hne]
    rw [show maxIdx [([] : Path)] = 0 from rfl]
    rfl
  | obj kvs =>
    rw [restrict_obj hne]
    rw [show headKeys [([] : Path)] = [] from rfl]
    rfl

/-- Length of a padded list. -/
theorem padTo_length (n : Nat) (l : List Json) :
    (padTo n l).length = max n l.length := by
  simp [padTo]
  omega

/-- Padding to within the current length does nothing. -/
theorem padTo_of_le {n : Nat} {l : List Json} (h : n ≤ l.length) :
    padTo n l = l := by
  rw [padTo, show n - l.length = 0 from by omega]
  simp

/-- Indices at or beyond maxIdx have empty residuals. -/
theorem residIdx_nil_of_ge {S : List Path} {j : Nat} (h : maxIdx S ≤ j) :
    residIdx j S = [] := by
  rw [List.eq_nil_iff_forall_not_mem]
  intro q hq
  have := le_maxIdx_of_mem (mem_residIdx.mp hq)
  omega

/-- Lookup in the entrywise-restricted association list. -/
theorem lookup_restrict_map (kvs : List (String × Json)) (S' : List Path) (k : String) :
    (kvs.map fun kv => (kv.1, restrict kv.2 (residKey kv.1 S'))).lookup k
      = (kvs.lookup k).map (fun x => restrict x (residKey k S')) :=
  lookup_map_keyed kvs (fun k' x => restrict x (residKey k' S')) k

/-- One merge step assigning a fresh object entry [key k] itself. -/
theorem restrict_insert_key_base {kvs : List (String × Json)} {S : List Path}
    {k : String} {w : Json}
    (hlw : kvs.lookup k = some w)
    (hnokey : ∀ q0 : Path, Seg.key k :: q0 ∉ S) :
    insertP (restrict (.obj kvs) S) [Seg.key k] (headVal w)
      = .ok (restrict (.obj kvs) (S ++ [[Seg.key k]])) := by
  have hres : residKey k S = [] := by
    rw [List.eq_nil_iff_forall_not_mem]
    intro q hq
    exact hnokey q (mem_residKey.mp hq)
  have hkhd : k ∉ headKeys S := by
    intro hkh
    obtain ⟨q0, hq0⟩ := mem_headKeys.mp hkh
    exact hnokey q0 hq0
  have hresApp : residKey k (S ++ [[Seg.key k]]) = [([] : Path)] := by
    rw [show ([[Seg.key k]] : List (List Seg)) = [Seg.key k :: ([] : Path)] from rfl,
      residKey_append_same, hres]
    rfl
  rcases eq_or_ne S [] with rfl | hSne
  · rw [restrict_nil]
    have hRHS : restrict (Json.obj kvs) (([] : List Path) ++ [[Seg.key k]])
        = .obj [(k, headVal w)] := by
      rw [show ([] : List Path) ++ [[Seg.key k]] = [[Seg.key k]] from rfl]
      rw [restrict_obj (by simp)]
      rw [show headKeys [[Seg.key k]] = [k] from rfl]
      rw [reorder_cons, lookup_restrict_map, hlw]
      rw [show residKey k [[Seg.key k]] = [([] : Path)] from by
        simpa using hresApp]
      rw [show Option.map (fun x => restrict x [([] : Path)]) (some w)
          = some (restrict w [([] : Path)]) from rfl]
      rw [restrict_single_nil]
      rfl
    rw [hRHS]
    rfl
  · rw [restrict_obj hSne]
    rw [show insertP (.obj (reorder (headKeys S)
          (kvs.map fun kv => (kv.1, restrict kv.2 (residKey kv.1 S)))))
          [Seg.key k] (headVal w)
        = (insertP (lookupD (reorder (headKeys S)
            (kvs.map fun kv => (kv.1, restrict kv.2 (residKey kv.1 S)))) k)
            [] (headVal w)).map
            (fun w' => .obj (setKV (reorder (headKeys S)
              (kvs.map fun kv => (kv.1, restrict kv.2 (residKey kv.1 S)))) k w'))
        from rfl]
    rw [show ∀ a : Json, insertP (lookupD (reorder (headKeys S)
          (kvs.map fun kv => (kv.1, restrict kv.2 (residKey kv.1 S)))) k) [] a
        = .ok a from fun a => rfl]
    rw [show ∀ a : Json, Except.map (fun w' => Json.obj (setKV (reorder (headKeys S)
          (kvs.map fun kv => (kv.1, restrict kv.2 (residKey kv.1 S)))) k w'))
          (Except.ok a)
        = Except.ok (Json.obj (setKV (reorder (headKeys S)
          (kvs.map fun kv => (kv.1, restrict kv.2 (residKey kv.1 S)))) k a))
        from fun a => rfl]
    have hknotin : k ∉ (reorder (headKeys S)
        (kvs.map fun kv => (kv.1, restrict kv.2 (residKey kv.1 S)))).map Prod.fst := by
      intro hmem
      obtain ⟨pa, hpa, hfst⟩ := List.mem_map.mp hmem
      exact hkhd (hfst ▸ mem_reorder_keys hpa)
    rw [setKV_of_not_mem _ hknotin]
    rw [restrict_obj (by simp : S ++ [[Seg.key k]] ≠ [])]
    rw [show (S ++ [[Seg.key k]] : List Path) = S ++ [Seg.key k :: ([] : Path)] from rfl,
      headKeys_append_key, if_neg hkhd]
    rw [reorder_append_keys]
    have e1 : reorder (headKeys S) (kvs.map fun kv =>
          (kv.1, restrict kv.2 (residKey kv.1 (S ++ [Seg.key k :: ([] : Path)]))))
        = reorder (headKeys S) (kvs.map fun kv =>
          (kv.1, restrict kv.2 (residKey kv.1 S))) := by
      apply reorder_congr
      intro k' hk'
      have hne : k' ≠ k := fun h => hkhd (h ▸ hk')
      rw [lookup_restrict_map, lookup_restrict_map]
      rw [residKey_append_other S (fun q heq => by
        injection heq with h1 _
        injection h1 with h2
        exact hne h2.symm)]
    have e2 : reorder [k] (kvs.map fun kv =>
          (kv.1, restrict kv.2 (residKey kv.1 (S ++ [Seg.key k :: ([] : Path)]))))
        = [(k, headVal w)] := by
      rw [reorder_cons, lookup_restrict_map, hlw]
      rw [show residKey k (S ++ [Seg.key k :: ([] : Path)]) = [([] : Path)] from by
        simpa using hresApp]
      rw [show Option.map (fun x => restrict x [([] : Path)]) (some w)
          = some (restrict w [([] : Path)]) from rfl]
      rw [restrict_single_nil]
      rfl
    rw [e1, e2]

/-- One merge step descending through an existing object entry. -/
theorem restrict_insert_key_step {kvs : List (String × Json)} {S : List Path}
    {k : String} {w : Json} {p' : Path}
    (hlw : kvs.lookup k = some w)
    (hp' : p' ≠ [])
    (hkS : [Seg.key k] ∈ S)
    (hrec : insertP (restrict w (residKey k S)) p' (headVal (getP w p'))
      = .ok (restrict w (residKey k S ++ [p']))) :
    insertP (restrict (.obj kvs) S) (Seg.key k :: p') (headVal (getP w p'))
      = .ok (restrict (.obj kvs) (S ++ [Seg.key k :: p'])) := by
  have hSne : S ≠ [] := by rintro rfl; cases hkS
  have hkhd : k ∈ headKeys S := mem_headKeys.mpr ⟨[], hkS⟩
  have hndk : (headKeys S).Nodup := dedupF_nodup _
  rw [restrict_obj hSne]
  rw [show insertP (.obj (reorder (headKeys S)
        (kvs.map fun kv => (kv.1, restrict kv.2 (residKey kv.1 S)))))
        (Seg.key k :: p') (headVal (getP w p'))
      = (insertP (lookupD (reorder (headKeys S)
          (kvs.map fun kv => (kv.1, restrict kv.2 (residKey kv.1 S)))) k)
          p' (headVal (getP w p'))).map
          (fun w' => .obj (setKV (reorder (headKeys S)
            (kvs.map fun kv => (kv.1, restrict kv.2 (residKey kv.1 S)))) k w'))
      from rfl]
  have hlook : lookupD (reorder (headKeys S)
      (kvs.map fun kv => (kv.1, restrict kv.2 (residKey kv.1 S)))) k
      = restrict w (residKey k S) := by
    rw [lookupD, lookup_reorder_mem hndk hkhd, lookup_restrict_map, hlw]
    rfl
  rw [hlook, hrec]
  rw [show Except.map (fun w' => Json.obj (setKV (reorder (headKeys S)
        (kvs.map fun kv => (kv.1, restrict kv.2 (residKey kv.1 S)))) k w'))
        (Except.ok (restrict w (residKey k S ++ [p'])))
      = Except.ok (Json.obj (setKV (reorder (headKeys S)
          (kvs.map fun kv => (kv.1, restrict kv.2 (residKey kv.1 S)))) k
          (restrict w (residKey k S ++ [p'])))) from rfl]
  rw [restrict_obj (by simp : S ++ [Seg.key k :: p'] ≠ [])]
  rw [headKeys_append_key, if_pos hkhd]
  congr 2
  apply setKV_reorder hndk
  · intro k' hk' hne
    rw [lookup_restrict_map, lookup_restrict_map]
    rw [residKey_append_other S (fun q heq => by
      injection heq with h1 _
      injection h1 with h2
      exact hne h2.symm)]
  · exact ⟨restrict w (residKey k S), by rw [lookup_restrict_map, hlw]; rfl⟩
  · rw [lookup_restrict_map, hlw, residKey_append_same]
    rfl
  · exact hkhd

/-- Elements of a padded list: original in range, Null in the padding. -/
theorem padTo_getElem {n : Nat} {l : List Json} {j : Nat}
    (hj : j < (padTo n l).length) :
    (padTo n l)[j] = if h : j < l.length then l[j] else Json.null := by
  simp only [padTo] at hj ⊢
  rcases Nat.lt_or_ge j l.length with h | h
  · rw [List.getElem_append_left h, dif_pos h]
  · rw [List.getElem_append_right h, List.getElem_replicate, dif_neg (by omega)]

/-- One merge step assigning a fresh array slot [idx i] itself, padding with
Null up to it. -/
theorem restrict_insert_idx_base {xs : List Json} {S : List Path} {i : Nat}
    (hi : i < xs.length)
    (hnoidx : ∀ q0 : Path, Seg.idx i :: q0 ∉ S) :
    insertP (restrict (.arr xs) S) [Seg.idx i] (headVal xs[i])
      = .ok (restrict (.arr xs) (S ++ [[Seg.idx i]])) := by
  have hres : residIdx i S = [] := by
    rw [List.eq_nil_iff_forall_not_mem]
    intro q hq
    exact hnoidx q (mem_residIdx.mp hq)
  have hresApp : residIdx i (S ++ [[Seg.idx i]]) = [([] : Path)] := by
    rw [show ([[Seg.idx i]] : List (List Seg)) = [Seg.idx i :: ([] : Path)] from rfl,
      residIdx_append_same, hres]
    rfl
  have hmaxApp : maxIdx (S ++ [[Seg.idx i]]) = max (maxIdx S) (i + 1) := by
    rw [show ([[Seg.idx i]] : List (List Seg)) = [Seg.idx i :: ([] : Path)] from rfl,
      maxIdx_append]
    rfl
  rcases eq_or_ne S [] with rfl | hSne
  · rw [restrict_nil]
    rw [show insertP Json.null [Seg.idx i] (headVal xs[i])
        = .ok (.arr ((padTo (i + 1) []).set i (headVal xs[i]))) from rfl]
    rw [show ([] : List Path) ++ [[Seg.idx i]] = [[Seg.idx i]] from rfl]
    rw [restrict_arr (by simp)]
    have hm : maxIdx [[Seg.idx i]] = i + 1 := by
      simpa using hmaxApp
    rw [hm]
    congr 2
    apply List.ext_getElem
    · simp [padTo_length]
    · intro j h1 h2
      have hji : j < i + 1 := by
        simpa using h2
      rw [List.getElem_map, List.getElem_range, List.getElem_set]
      by_cases hij : i = j
      · subst hij
        rw [if_pos rfl, dif_pos hi]
        rw [show residIdx i [[Seg.idx i]] = [([] : Path)] from by simpa using hresApp]
        rw [restrict_single_nil]
      · rw [if_neg hij]
        have hjlen : j < xs.length := by omega
        rw [padTo_getElem (by rw [padTo_length]; simp; omega), dif_neg (by simp), dif_pos hjlen]
        rw [show residIdx j [[Seg.idx i]] = [] from by
          rw [List.eq_nil_iff_forall_not_mem]
          intro q hq
          have := mem_residIdx.mp hq
          simp at this
          exact hij this.1.symm]
        rw [restrict_nil]
  · rw [restrict_arr hSne]
    rw [show ∀ A : List Json, insertP (.arr A) [Seg.idx i] (headVal xs[i])
        = .ok (.arr ((padTo (i + 1) A).set i (headVal xs[i]))) from fun A => rfl]
    rw [restrict_arr (by simp : S ++ [[Seg.idx i]] ≠ [])]
    rw [hmaxApp]
    congr 2
    have hAlen : ((List.range (maxIdx S)).map fun j =>
        if h : j < xs.length then restrict xs[j] (residIdx j S) else Json.null).length
        = maxIdx S := by simp
    apply List.ext_getElem
    · rw [List.length_set, padTo_length, hAlen]
      simp
      omega
    · intro j h1 h2
      have hjlt : j < max (maxIdx S) (i + 1) := by
        rw [List.length_set, padTo_length, hAlen] at h1
        omega
      rw [List.getElem_map, List.getElem_range, List.getElem_set]
      by_cases hij : i = j
      · subst hij
        rw [if_pos rfl, dif_pos hi]
        rw [show residIdx i (S ++ [[Seg.idx i]]) = [([] : Path)] from hresApp]
        rw [restrict_single_nil]
      · rw [if_neg hij]
        rw [padTo_getElem (by rw [padTo_length, hAlen]; omega)]
        have hresO : residIdx j (S ++ [[Seg.idx i]]) = residIdx j S := by
          apply residIdx_append_other
          intro q heq
          injection heq with h3 _
          injection h3 with h4
          exact hij h4
        rw [hresO]
        by_cases hjm : j < maxIdx S
        · rw [dif_pos (by rw [hAlen]; exact hjm)]
          rw [List.getElem_map, List.getElem_range]
        · rw [dif_neg (by rw [hAlen]; exact hjm)]
          have hresNil : residIdx j S = [] := residIdx_nil_of_ge (by omega)
          by_cases hjlen : j < xs.length
          · rw [dif_pos hjlen, hresNil, restrict_nil]
          · rw [dif_neg hjlen]

/-- One merge step descending through an existing array slot. -/
theorem restrict_insert_idx_step {xs : List Json} {S : List Path} {i : Nat} {p' : Path}
    (hi : i < xs.length)
    (hp' : p' ≠ [])
    (hiS : [Seg.idx i] ∈ S)
    (hrec : insertP (restrict xs[i] (residIdx i S)) p' (headVal (getP xs[i] p'))
      = .ok (restrict xs[i] (residIdx i S ++ [p']))) :
    insertP (restrict (.arr xs) S) (Seg.idx i :: p') (headVal (getP xs[i] p'))
      = .ok (restrict (.arr xs) (S ++ [Seg.idx i :: p'])) := by
  have hSne : S ≠ [] := by rintro rfl; cases hiS
  have him : i + 1 ≤ maxIdx S := le_maxIdx_of_mem hiS
  rw [restrict_arr hSne]
  rw [show ∀ (A : List Json) (a : Json), insertP (.arr A) (Seg.idx i :: p') a
      = (insertP ((padTo (i + 1) A).getD i .null) p' a).map
          (fun w' => .arr ((padTo (i + 1) A).set i w')) from fun A a => rfl]
  have hAlen : ((List.range (maxIdx S)).map fun j =>
      if h : j < xs.length then restrict xs[j] (residIdx j S) else Json.null).length
      = maxIdx S := by simp
  rw [padTo_of_le (by rw [hAlen]; exact him)]
  have hgd : ((List.range (maxIdx S)).map fun j =>
      if h : j < xs.length then restrict xs[j] (residIdx j S) else Json.null).getD i .null
      = restrict xs[i] (residIdx i S) := by
    rw [List.getD_eq_getElem _ _ (by rw [hAlen]; omega)]
    rw [List.getElem_map, List.getElem_range, dif_pos hi]
  rw [hgd, hrec]
  rw [show ∀ X : Json, Except.map (fun w' => Json.arr
        (((List.range (maxIdx S)).map fun j =>
          if h : j < xs.length then restrict xs[j] (residIdx j S) else Json.null).set i w'))
        (Except.ok X)
      = Except.ok (Json.arr (((List.range (maxIdx S)).map fun j =>
          if h : j < xs.length then restrict xs[j] (residIdx j S) else Json.null).set i X))
      from fun X => rfl]
  rw [restrict_arr (by simp : S ++ [Seg.idx i :: p'] ≠ [])]
  have hmaxApp : maxIdx (S ++ [Seg.idx i :: p']) = maxIdx S := by
    rw [maxIdx_append]
    rw [show (headIdxBound (Seg.idx i :: p')).getD 0 = i + 1 from rfl]
    omega
  rw [hmaxApp]
  congr 2
  apply List.ext_getElem
  · simp
  · intro j h1 h2
    have hjm : j < maxIdx S := by
      rw [List.length_set] at h1
      simpa using h1
    rw [List.getElem_map, List.getElem_range, List.getElem_set]
    by_cases hij : i = j
    · subst hij
      rw [if_pos rfl, dif_pos hi]
      rw [show residIdx i (S ++ [Seg.idx i :: p']) = residIdx i S ++ [p'] from
        residIdx_append_same i S p']
    · rw [if_neg hij]
      rw [List.getElem_map, List.getElem_range]
      have hresO : residIdx j (S ++ [Seg.idx i :: p']) = residIdx j S := by
        apply residIdx_append_other
        intro q heq
        injection heq with h3 _
        injection h3 with h4
        exact hij h4
      rw [hresO]

/-- One full merge step: inserting the assigned value of a fresh addressed
path p into the partial tree for the prefix-closed collection S yields the
partial tree for S extended by p. -/
theorem insertP_restrict : ∀ (p : Path) (v : Json) (S : List Path),
    validJson v = true →
    (∀ q ∈ S, q ∈ pathsOf v) →
    (∀ q ∈ S, ∀ r, r <+: q → r ≠ [] → r ∈ S) →
    p ∈ pathsOf v → p ≠ [] → p ∉ S →
    (∀ r, r <+: p → r ≠ [] → r ≠ p → r ∈ S) →
    insertP (restrict v S) p (headVal (getP v p)) = .ok (restrict v (S ++ [p])) := by
  intro p
  induction p with
  | nil => intro v S _ _ _ _ hne _ _; exact absurd rfl hne
  | cons seg p' ih =>
    intro v S hval hSp hScl hp hne hpS hpre
    cases seg with
    | key k =>
      obtain ⟨kvs, rfl⟩ := key_mem_paths_shape hp
      obtain ⟨w, hw, hq⟩ := key_mem_paths_obj.mp hp
      obtain ⟨hnd, hvw⟩ := validJson_obj_iff.mp hval
      have hlw : kvs.lookup k = some w := lookup_eq_of_mem_nodup hnd hw
      have hgp : getP (.obj kvs) (Seg.key k :: p') = getP w p' := by
        rw [getP_obj_key, lookupD, hlw]
        rfl
      rw [hgp]
      rcases eq_or_ne p' [] with rfl | hp'ne
      · apply restrict_insert_key_base hlw
        intro q0 hq0
        by_cases h0 : q0 = []
        · subst h0
          exact hpS hq0
        · exact hpS (hScl _ hq0 [Seg.key k] ⟨q0, rfl⟩ (by simp))
      · have hkS : [Seg.key k] ∈ S := by
          apply hpre [Seg.key k] ⟨p', rfl⟩ (by simp)
          intro hcontra
          injection hcontra with _ h2
          exact hp'ne h2.symm
        apply restrict_insert_key_step hlw hp'ne hkS
        apply ih w (residKey k S)
        · exact hvw (k, w) hw
        · intro q hq2
          have hmem := mem_residKey.mp hq2
          obtain ⟨w', hw', hq'⟩ := key_mem_paths_obj.mp (hSp _ hmem)
          have heq : some w = some w' := by
            rw [← hlw]
            exact lookup_eq_of_mem_nodup hnd hw'
          injection heq with heq
          rw [← heq] at hq'
          exact hq'
        · intro q hq2 r hr hrne
          exact mem_residKey.mpr (hScl _ (mem_residKey.mp hq2) (Seg.key k :: r)
            (List.cons_prefix_cons.mpr ⟨rfl, hr⟩) (by simp))
        · exact hq
        · exact hp'ne
        · exact fun hmem => hpS (mem_residKey.mp hmem)
        · intro r hr hrne hrnep
          apply mem_residKey.mpr
          apply hpre (Seg.key k :: r) (List.cons_prefix_cons.mpr ⟨rfl, hr⟩) (by simp)
          intro hceq
          injection hceq with _ h2
          exact hrnep h2
    | idx i =>
      obtain ⟨xs, rfl⟩ := idx_mem_paths_shape hp
      obtain ⟨hi, hq⟩ := idx_mem_paths_arr.mp hp
      have hgp : getP (.arr xs) (Seg.idx i :: p') = getP xs[i] p' := by
        rw [getP_arr_idx, List.getD_eq_getElem _ _ hi]
      rw [hgp]
      rcases eq_or_ne p' [] with rfl | hp'ne
      · apply restrict_insert_idx_base hi
        intro q0 hq0
        by_cases h0 : q0 = []
        · subst h0
          exact hpS hq0
        · exact hpS (hScl _ hq0 [Seg.idx i] ⟨q0, rfl⟩ (by simp))
      · have hiS : [Seg.idx i] ∈ S := by
          apply hpre [Seg.idx i] ⟨p', rfl⟩ (by simp)
          intro hcontra
          injection hcontra with _ h2
          exact hp'ne h2.symm
        apply restrict_insert_idx_step hi hp'ne hiS
        apply ih xs[i] (residIdx i S)
        · exact validJson_arr_iff.mp hval _ (List.getElem_mem hi)
        · intro q hq2
          have hmem := mem_residIdx.mp hq2
          obtain ⟨hi', hq'⟩ := idx_mem_paths_arr.mp (hSp _ hmem)
          exact hq'
        · intro q hq2 r hr hrne
          exact mem_residIdx.mpr (hScl _ (mem_residIdx.mp hq2) (Seg.idx i :: r)
            (List.cons_prefix_cons.mpr ⟨rfl, hr⟩) (by simp))
        · exact hq
        · exact hp'ne
        · exact fun hmem => hpS (mem_residIdx.mp hmem)
        · intro r hr hrne hrnep
          apply mem_residIdx.mpr
          apply hpre (Seg.idx i :: r) (List.cons_prefix_cons.mpr ⟨rfl, hr⟩) (by simp)
          intro hceq
          injection hceq with _ h2
          exact hrnep h2

/-- renderStmt distributes over statement append. -/
theorem renderStmt_append : ∀ s t : Stmt, renderStmt (s ++ t) = renderStmt s ++ renderStmt t := by
  intro s t
  induction s with
  | nil =>
    rw [List.nil_append]
    rw [show renderStmt [] = "" from rfl]
    rw [show ("" : String) ++ renderStmt t = renderStmt t from by
      cases h : renderStmt t
      rfl]
  | cons x rest ih =>
    rw [List.cons_append]
    rw [show renderStmt (x :: (rest ++ t)) = x.render ++ renderStmt (rest ++ t) from rfl]
    rw [ih]
    rw [show renderStmt (x :: rest) = x.render ++ renderStmt rest from rfl]
    rw [String.append_assoc]

/-- Lexicographic comparison rejects a larger character after a common
prefix. -/
theorem lexLe_append_lt_false : ∀ (C : List Char) {x y : Char}, y < x →
    ∀ (A B : List Char), lexLe (C ++ x :: A) (C ++ y :: B) = false := by
  intro C
  induction C with
  | nil =>
    intro x y h A B
    rw [List.nil_append, List.nil_append, lexLe_cons, if_neg (lt_asymm h), if_pos h]
  | cons c cs ih =>
    intro x y h A B
    rw [List.cons_append, List.cons_append, lexLe_cons,
      if_neg (lt_irrefl c), if_neg (lt_irrefl c)]
    exact ih h A B

/-- The statement of a strictly deeper path compares strictly after the
statement of its prefix path: the prefix statement's text continues with the
space of its value assignment while the deeper one continues with a dot or a
bracket. -/
theorem render_pair_strict {p2 : Path} (seg : Seg) (t : Path) (a1 a2 : Json) :
    stmtLe (stmtOfPair "json" (p2 ++ seg :: t, a1)) (stmtOfPair "json" (p2, a2))
      = false := by
  unfold stmtLe
  have h1 : renderStmt (stmtOfPair "json" (p2 ++ seg :: t, a1))
      = ("json" ++ renderStmt (pathToks p2))
        ++ renderStmt (pathToks (seg :: t) ++ [.equals, valTok a1, .semi]) := by
    rw [show stmtOfPair "json" (p2 ++ seg :: t, a1)
        = .bare "json" :: (pathToks (p2 ++ seg :: t) ++ [.equals, valTok a1, .semi])
        from rfl]
    rw [show renderStmt (.bare "json" ::
          (pathToks (p2 ++ seg :: t) ++ [.equals, valTok a1, .semi]))
        = "json" ++ renderStmt (pathToks (p2 ++ seg :: t) ++ [.equals, valTok a1, .semi])
        from rfl]
    rw [pathToks_append, List.append_assoc, renderStmt_append, String.append_assoc]
  have h2 : renderStmt (stmtOfPair "json" (p2, a2))
      = ("json" ++ renderStmt (pathToks p2))
        ++ renderStmt [Tok.equals, valTok a2, .semi] := by
    rw [show stmtOfPair "json" (p2, a2)
        = .bare "json" :: (pathToks p2 ++ [.equals, valTok a2, .semi]) from rfl]
    rw [show renderStmt (.bare "json" :: (pathToks p2 ++ [.equals, valTok a2, .semi]))
        = "json" ++ renderStmt (pathToks p2 ++ [.equals, valTok a2, .semi]) from rfl]
    rw [renderStmt_append, String.append_assoc]
  rw [h1, h2]
  simp only [String.data_append]
  have h3 : (renderStmt [Tok.equals, valTok a2, .semi]).data
      = ' ' :: ('=' :: ' ' :: (renderStmt [valTok a2, Tok.semi]).data) := by
    rw [show renderStmt [Tok.equals, valTok a2, .semi]
        = " = " ++ renderStmt [valTok a2, Tok.semi] from rfl]
    rw [String.data_append]
    rfl
  rw [h3]
  obtain ⟨c1, R1, hc1, hR⟩ : ∃ c1 R1, (c1 = '.' ∨ c1 = '[') ∧
      (renderStmt (pathToks (seg :: t) ++ [.equals, valTok a1, .semi])).data
        = c1 :: R1 := by
    cases seg with
    | key k =>
      by_cases hq : keyMustBeQuoted k
      · have hdat : (renderStmt (pathToks (Seg.key k :: t)
            ++ [Tok.equals, valTok a1, .semi])).data
            = '[' :: (renderStmt ((.quotedKey k :: .rbrace :: pathToks t)
              ++ [Tok.equals, valTok a1, .semi])).data := by
          rw [show pathToks (Seg.key k :: t) ++ [Tok.equals, valTok a1, .semi]
              = .lbrace :: ((.quotedKey k :: .rbrace :: pathToks t)
                  ++ [Tok.equals, valTok a1, .semi]) from by
            simp [pathToks, keyToks, hq]]
          rw [show renderStmt (.lbrace :: ((.quotedKey k :: .rbrace :: pathToks t)
                ++ [Tok.equals, valTok a1, .semi]))
              = "[" ++ renderStmt ((.quotedKey k :: .rbrace :: pathToks t)
                ++ [Tok.equals, valTok a1, .semi]) from rfl]
          rw [String.data_append]
          rfl
        exact ⟨'[', _, .inr rfl, hdat⟩
      · have hdat : (renderStmt (pathToks (Seg.key k :: t)
            ++ [Tok.equals, valTok a1, .semi])).data
            = '.' :: (renderStmt ((.bare k :: pathToks t)
              ++ [Tok.equals, valTok a1, .semi])).data := by
          rw [show pathToks (Seg.key k :: t) ++ [Tok.equals, valTok a1, .semi]
              = .dot :: ((.bare k :: pathToks t) ++ [Tok.equals, valTok a1, .semi]) from by
            simp [pathToks, keyToks, hq]]
          rw [show renderStmt (.dot :: ((.bare k :: pathToks t)
                ++ [Tok.equals, valTok a1, .semi]))
              = "." ++ renderStmt ((.bare k :: pathToks t)
                ++ [Tok.equals, valTok a1, .semi]) from rfl]
          rw [String.data_append]
          rfl
        exact ⟨'.', _, .inl rfl, hdat⟩
    | idx i =>
      have hdat : (renderStmt (pathToks (Seg.idx i :: t)
          ++ [Tok.equals, valTok a1, .semi])).data
          = '[' :: (renderStmt ((.numKey i :: .rbrace :: pathToks t)
            ++ [Tok.equals, valTok a1, .semi])).data := by
        rw [show pathToks (Seg.idx i :: t) ++ [Tok.equals, valTok a1, .semi]
            = .lbrace :: ((.numKey i :: .rbrace :: pathToks t)
                ++ [Tok.equals, valTok a1, .semi]) from by
          simp [pathToks, idxToks]]
        rw [show renderStmt (.lbrace :: ((.numKey i :: .rbrace :: pathToks t)
              ++ [Tok.equals, valTok a1, .semi]))
            = "[" ++ renderStmt ((.numKey i :: .rbrace :: pathToks t)
              ++ [Tok.equals, valTok a1, .semi]) from rfl]
        rw [String.data_append]
        rfl
      exact ⟨'[', _, .inr rfl, hdat⟩
  rw [hR]
  rcases hc1 with rfl | rfl
  · exact lexLe_append_lt_false _ (by decide) _ _
  · exact lexLe_append_lt_false _ (by decide) _ _

/-- In a statement-sorted pair list, no later pair's path is a proper prefix
of an earlier pair's path. -/
theorem sorted_pairs_no_prefix {L : List (Path × Json)}
    (hs : List.Pairwise (fun a b =>
      stmtLe (stmtOfPair "json" a) (stmtOfPair "json" b) = true) L) :
    List.Pairwise (fun a b => ¬ (b.1 <+: a.1 ∧ b.1 ≠ a.1)) L := by
  refine hs.imp ?_
  rintro ⟨p1, a1⟩ ⟨p2, a2⟩ hle ⟨⟨t, ht⟩, hne⟩
  rcases t with _ | ⟨seg, t'⟩
  · exact hne (by simpa using ht)
  · rw [show p1 = p2 ++ seg :: t' from ht.symm] at hle
    rw [render_pair_strict seg t' a1 a2] at hle
    cases hle

/-- Folding insertP over a hierarchically ordered, duplicate-free list of
path/value pairs taken from `v` extends the partial merge state by exactly
those paths. -/
theorem foldIns_restrict : ∀ (ps : List (Path × Json)) (v : Json) (S : List Path),
    validJson v = true →
    (∀ q ∈ S, q ∈ pathsOf v) →
    (∀ q ∈ S, ∀ r, r <+: q → r ≠ [] → r ∈ S) →
    (∀ pa ∈ ps, pa.1 ∈ pathsOf v ∧ pa.1 ≠ [] ∧ pa.2 = headVal (getP v pa.1)) →
    (S ++ ps.map Prod.fst).Nodup →
    (∀ pa ∈ ps, ∀ r, r <+: pa.1 → r ≠ [] → r ≠ pa.1 →
      r ∈ S ∨ r ∈ ps.map Prod.fst) →
    List.Pairwise (fun a b => ¬ (b.1 <+: a.1 ∧ b.1 ≠ a.1)) ps →
    List.foldlM (fun t pa => insertP t pa.1 pa.2) (restrict v S) ps
      = .ok (restrict v (S ++ ps.map Prod.fst)) := by
  intro ps
  induction ps with
  | nil =>
    intro v S _ _ _ _ _ _ _
    rw [List.foldlM_nil, List.map_nil, List.append_nil]
    rfl
  | cons pa rest ih =>
    intro v S hval hSp hScl hps hnd hpre hpair
    obtain ⟨hp1, hp2, hp3⟩ := hps pa (List.mem_cons_self _ _)
    have hnotS : pa.1 ∉ S := by
      intro hmem
      exact (List.nodup_append.mp hnd).2.2 hmem (by simp)
    have hprev : ∀ r, r <+: pa.1 → r ≠ [] → r ≠ pa.1 → r ∈ S := by
      intro r hr hrne hrnep
      rcases hpre pa (List.mem_cons_self _ _) r hr hrne hrnep with h | h
      · exact h
      · rw [List.map_cons, List.mem_cons] at h
        rcases h with h | h
        · exact absurd h hrnep
        · obtain ⟨b, hb, hbr⟩ := List.mem_map.mp h
          exact absurd ⟨hbr ▸ hr, hbr ▸ hrnep⟩ ((List.pairwise_cons.mp hpair).1 b hb)
    have hstep := insertP_restrict pa.1 v S hval hSp hScl hp1 hp2 hnotS hprev
    have hSp' : ∀ q ∈ S ++ [pa.1], q ∈ pathsOf v := by
      intro q hq
      rcases List.mem_append.mp hq with h | h
      · exact hSp q h
      · rw [List.mem_singleton] at h
        exact h ▸ hp1
    have hScl' : ∀ q ∈ S ++ [pa.1], ∀ r, r <+: q → r ≠ [] → r ∈ S ++ [pa.1] := by
      intro q hq r hr hrne
      rcases List.mem_append.mp hq with h | h
      · exact List.mem_append_left _ (hScl q h r hr hrne)
      · rw [List.mem_singleton] at h
        subst h
        by_cases hcase : r = pa.1
        · exact List.mem_append_right _ (by simp [hcase])
        · exact List.mem_append_left _ (hprev r hr hrne hcase)
    have hps' : ∀ pb ∈ rest, pb.1 ∈ pathsOf v ∧ pb.1 ≠ []
        ∧ pb.2 = headVal (getP v pb.1) := by
      intro pb hpb
      exact hps pb (List.mem_cons_of_mem _ hpb)
    have hnd' : ((S ++ [pa.1]) ++ rest.map Prod.fst).Nodup := by
      rw [List.append_assoc]
      exact hnd
    have hpre' : ∀ pb ∈ rest, ∀ r, r <+: pb.1 → r ≠ [] → r ≠ pb.1 →
        r ∈ S ++ [pa.1] ∨ r ∈ rest.map Prod.fst := by
      intro pb hpb r hr hrne hrnep
      rcases hpre pb (List.mem_cons_of_mem _ hpb) r hr hrne hrnep with h | h
      · exact .inl (List.mem_append_left _ h)
      · rw [List.map_cons, List.mem_cons] at h
        rcases h with h | h
        · exact .inl (List.mem_append_right _ (by simp [h]))
        · exact .inr h
    have hrest := ih v (S ++ [pa.1]) hval hSp' hScl' hps' hnd' hpre'
      (List.pairwise_cons.mp hpair).2
    calc List.foldlM (fun t pb => insertP t pb.1 pb.2) (restrict v S) (pa :: rest)
        = List.foldlM (fun t pb => insertP t pb.1 pb.2)
            (restrict v (S ++ [pa.1])) rest := by
          rw [List.foldlM_cons, hp3, hstep]
          rfl
      _ = .ok (restrict v ((S ++ [pa.1]) ++ rest.map Prod.fst)) := hrest
      _ = .ok (restrict v (S ++ (pa :: rest).map Prod.fst)) := by
          rw [List.append_assoc]
          rfl

/-- reorder respects permutations of the key list. -/
theorem reorder_perm {ks ks' : List String} (l : List (String × Json))
    (h : ks.Perm ks') : (reorder ks l).Perm (reorder ks' l) :=
  h.filterMap _

/-- Reordering an association list with duplicate-free keys by its own key
list is the identity. -/
theorem reorder_self : ∀ (l : List (String × Json)),
    (l.map Prod.fst).Nodup → reorder (l.map Prod.fst) l = l := by
  intro l
  induction l with
  | nil => intro _; rfl
  | cons kv rest ih =>
    obtain ⟨k, w⟩ := kv
    intro hnd
    rw [List.map_cons, reorder_cons,
      lookup_eq_of_mem_nodup hnd (List.mem_cons_self _ _)]
    simp only [List.map_cons, List.nodup_cons] at hnd
    show (k, w) :: reorder (rest.map Prod.fst) ((k, w) :: rest) = (k, w) :: rest
    have hcongr : reorder (rest.map Prod.fst) ((k, w) :: rest)
        = reorder (rest.map Prod.fst) rest := by
      apply reorder_congr
      intro k' hk'
      have hne : (k' == k) = false := by
        refine beq_eq_false_iff_ne.mpr ?_
        rintro rfl
        exact hnd.1 hk'
      simp only [List.lookup, hne]
    rw [hcongr, ih hnd.2]

/-- Forall₂ between two maps over the same list. -/
theorem forall₂_map_same {α : Type} {R : Json → Json → Prop} :
    ∀ (l : List α) (f g : α → Json), (∀ x ∈ l, R (f x) (g x)) →
    List.Forall₂ R (l.map f) (l.map g) := by
  intro l f g
  induction l with
  | nil => intro _; exact .nil
  | cons x rest ih =>
    intro h
    exact .cons (h x (List.mem_cons_self _ _))
      (ih fun y hy => h y (List.mem_cons_of_mem _ hy))

/-- Forall₂ between a map over an index range and the list itself. -/
theorem forall₂_range_map {R : Json → Json → Prop} (xs : List Json)
    (f : Nat → Json) (h : ∀ (i : Nat) (hi : i < xs.length), R (f i) xs[i]) :
    List.Forall₂ R ((List.range xs.length).map f) xs := by
  apply List.forall₂_iff_get.mpr
  refine ⟨by simp, ?_⟩
  intro i h1 h2
  simp only [List.get_eq_getElem, List.getElem_map, List.getElem_range]
  exact h i h2

/-- When the merged path collection covers exactly the nonempty paths of v,
the partial merge state is v itself up to object-entry permutation. -/
theorem restrict_full : ∀ (v : Json) (S : List Path),
    validJson v = true → S ≠ [] →
    (∀ q : Path, q ≠ [] → (q ∈ S ↔ q ∈ pathsOf v)) →
    Eqv (restrict v S) v := by
  intro v
  induction v using Json.indOn with
  | hnull =>
    intro S _ hSne _
    rw [restrict_null hSne]
    exact .null
  | hbool b =>
    intro S _ hSne _
    rw [restrict_bool hSne]
    exact .bool b
  | hnum lit =>
    intro S _ hSne _
    rw [restrict_num hSne]
    exact .num lit
  | hstr s =>
    intro S _ hSne _
    rw [restrict_str hSne]
    exact .str s
  | harr xs ihm =>
    intro S hval hSne hmem
    rw [restrict_arr hSne]
    have hvalm := validJson_arr_iff.mp hval
    have hm : maxIdx S = xs.length := by
      apply le_antisymm
      · apply maxIdx_le
        intro i q hq
        have hp := (hmem _ (by simp)).mp hq
        obtain ⟨hlt, _⟩ := idx_mem_paths_arr.mp hp
        omega
      · rcases Nat.eq_zero_or_pos xs.length with h0 | hpos
        · omega
        · have hlast : (Seg.idx (xs.length - 1) :: []) ∈ S := by
            apply (hmem _ (by simp)).mpr
            exact idx_mem_paths_arr.mpr ⟨by omega, nil_mem_pathsOf _⟩
          have := le_maxIdx_of_mem hlast
          omega
    apply Eqv.arr
    rw [hm]
    apply forall₂_range_map
    intro i hi
    rw [dif_pos hi]
    apply ihm xs[i] (List.getElem_mem hi)
    · exact hvalm _ (List.getElem_mem hi)
    · refine List.ne_nil_of_mem (a := ([] : Path)) ?_
      rw [mem_residIdx]
      apply (hmem _ (by simp)).mpr
      exact idx_mem_paths_arr.mpr ⟨hi, nil_mem_pathsOf _⟩
    · intro q hqne
      rw [mem_residIdx]
      rw [hmem (Seg.idx i :: q) (by simp)]
      rw [idx_mem_paths_arr]
      constructor
      · rintro ⟨h', hq'⟩
        exact hq'
      · intro hq'
        exact ⟨hi, hq'⟩
  | hobj kvs ihm =>
    intro S hval hSne hmem
    rw [restrict_obj hSne]
    obtain ⟨hndk, hvalm⟩ := validJson_obj_iff.mp hval
    have hMfst : ((kvs.map fun kv => (kv.1, restrict kv.2 (residKey kv.1 S))).map
        Prod.fst) = kvs.map Prod.fst := by
      rw [List.map_map]
      rfl
    have hndM : (((kvs.map fun kv =>
        (kv.1, restrict kv.2 (residKey kv.1 S))).map Prod.fst)).Nodup := by
      rw [hMfst]
      exact hndk
    have hkeysiff : ∀ k, k ∈ headKeys S ↔ k ∈ kvs.map Prod.fst := by
      intro k
      rw [mem_headKeys]
      constructor
      · rintro ⟨q, hq⟩
        have hp := (hmem _ (by simp)).mp hq
        obtain ⟨w, hw, _⟩ := key_mem_paths_obj.mp hp
        exact List.mem_map.mpr ⟨(k, w), hw, rfl⟩
      · intro hk
        obtain ⟨⟨k', w⟩, hkv, hfst⟩ := List.mem_map.mp hk
        cases hfst
        exact ⟨[], (hmem _ (by simp)).mpr
          (key_mem_paths_obj.mpr ⟨w, hkv, nil_mem_pathsOf _⟩)⟩
    have hpk : (headKeys S).Perm
        ((kvs.map fun kv => (kv.1, restrict kv.2 (residKey kv.1 S))).map Prod.fst) := by
      rw [hMfst]
      exact (List.perm_ext_iff_of_nodup (dedupF_nodup _) hndk).mpr hkeysiff
    refine Eqv.obj (kvs.map fun kv => (kv.1, restrict kv.2 (residKey kv.1 S)))
      ?_ hMfst ?_
    · have h1 := reorder_perm
        (kvs.map fun kv => (kv.1, restrict kv.2 (residKey kv.1 S))) hpk
      rwa [reorder_self _ hndM] at h1
    · rw [List.map_map]
      rw [show (Prod.snd ∘ fun kv : String × Json =>
          (kv.1, restrict kv.2 (residKey kv.1 S)))
          = fun kv : String × Json => restrict kv.2 (residKey kv.1 S) from rfl]
      apply forall₂_map_same
      intro kv hkv
      obtain ⟨k, w⟩ := kv
      apply ihm (k, w) hkv
      · exact hvalm (k, w) hkv
      · refine List.ne_nil_of_mem (a := ([] : Path)) ?_
        rw [mem_residKey]
        apply (hmem _ (by simp)).mpr
        exact key_mem_paths_obj.mpr ⟨w, hkv, nil_mem_pathsOf _⟩
      · intro q hqne
        rw [mem_residKey]
        rw [hmem (Seg.key k :: q) (by simp)]
        rw [key_mem_paths_obj]
        constructor
        · rintro ⟨w', hw', hq'⟩
          have h1 := lookup_eq_of_mem_nodup hndk hkv
          have h2 := lookup_eq_of_mem_nodup hndk hw'
          rw [h1] at h2
          injection h2 with h2
          exact h2 ▸ hq'
        · intro hq'
          exact ⟨w, hkv, hq'⟩

/-- dedupF of a nonempty constant list is the singleton. -/
theorem dedupF_const : ∀ (l : List String) (c : String), l ≠ [] →
    (∀ x ∈ l, x = c) → dedupF l = [c] := by
  intro l c
  cases l with
  | nil => intro h _; exact absurd rfl h
  | cons k ks =>
    intro _ hall
    have hk : k = c := hall k (List.mem_cons_self _ _)
    subst hk
    rw [show dedupF (k :: ks) = k :: (dedupF ks).filter (fun x => x != k) from rfl]
    have hfil : (dedupF ks).filter (fun x => x != k) = [] := by
      apply List.filter_eq_nil_iff.mpr
      intro a ha
      have : a = k := hall a (List.mem_cons_of_mem _ (mem_dedupF.mp ha))
      simp [this]
    rw [hfil]

/-- The sorted statements of the whole document are a map over the sorted
walk pairs. -/
theorem sorted_statements_eq (v : Json) :
    sortStatements (statementsFromJSON [.bare "json"] v)
      = ((walkPairs v).mergeSort
          (fun a b => stmtLe (stmtOfPair "json" a) (stmtOfPair "json" b))).map
          (stmtOfPair "json") := by
  rw [stmts_map]
  rw [show ((walkPairs v).map
      (fun pa => [Tok.bare "json"] ++ (pathToks pa.1 ++ [.equals, valTok pa.2, .semi])))
      = (walkPairs v).map (stmtOfPair "json") from rfl]
  rw [sortStatements]
  exact (@List.map_mergeSort (Path × Json) Stmt
      (fun a b => stmtLe (stmtOfPair "json" a) (stmtOfPair "json" b)) stmtLe
      (stmtOfPair "json") (walkPairs v) (fun a _ b _ => rfl)).symm

/-- The pair-level statement order is transitive. -/
theorem pairLe_trans : ∀ a b c : Path × Json,
    stmtLe (stmtOfPair "json" a) (stmtOfPair "json" b) = true →
    stmtLe (stmtOfPair "json" b) (stmtOfPair "json" c) = true →
    stmtLe (stmtOfPair "json" a) (stmtOfPair "json" c) = true :=
  fun _ _ _ hab hbc => stmtLe_trans _ _ _ hab hbc

/-- The pair-level statement order is total. -/
theorem pairLe_total_bool : ∀ a b : Path × Json,
    (stmtLe (stmtOfPair "json" a) (stmtOfPair "json" b)
      || stmtLe (stmtOfPair "json" b) (stmtOfPair "json" a)) = true :=
  fun _ _ => stmtLe_total_bool _ _

/-- The merge of the sorted statements of a valid document is the partial
merge state over the full wrapped path collection. -/
theorem merge_sorted_eq (v : Json) (hval : validJson v = true) :
    merge (sortStatements (statementsFromJSON [.bare "json"] v))
      = .ok (restrict (Json.obj [("json", v)])
          (((walkPairs v).mergeSort
              (fun a b => stmtLe (stmtOfPair "json" a) (stmtOfPair "json" b))).map
            (fun pa => Seg.key "json" :: pa.1))) := by
  rw [sorted_statements_eq]
  have hperm := List.mergeSort_perm (walkPairs v)
      (fun a b => stmtLe (stmtOfPair "json" a) (stmtOfPair "json" b))
  set L' := (walkPairs v).mergeSort
      (fun a b => stmtLe (stmtOfPair "json" a) (stmtOfPair "json" b)) with hL'def
  have hvalv' : validJson (Json.obj [("json", v)]) = true := by
    rw [validJson_obj_iff]
    constructor
    · simp
    · intro kv hkv
      rw [List.mem_singleton] at hkv
      rw [hkv]
      exact hval
  have hpairsW : ∀ pa ∈ L', pa.1 ∈ pathsOf v ∧ pa.2 = headVal (getP v pa.1) := by
    intro pa hpa
    obtain ⟨p, a⟩ := pa
    have hW : (p, a) ∈ walkPairs v := hperm.mem_iff.mp hpa
    exact ⟨List.mem_map.mpr ⟨(p, a), hW, rfl⟩, walkPairs_val v hval hW⟩
  have hvals : ∀ pa ∈ L', tokValue (valTok pa.2) = some pa.2 := by
    intro pa hpa
    rw [(hpairsW pa hpa).2]
    exact tokValue_valTok_headVal _
  have hconds : ∀ pb ∈ L'.map (fun pa : Path × Json => (Seg.key "json" :: pa.1, pa.2)),
      pb.1 ∈ pathsOf (Json.obj [("json", v)]) ∧ pb.1 ≠ []
        ∧ pb.2 = headVal (getP (Json.obj [("json", v)]) pb.1) := by
    intro pb hpb
    obtain ⟨pa, hpa, rfl⟩ := List.mem_map.mp hpb
    obtain ⟨hp1, hp2⟩ := hpairsW pa hpa
    refine ⟨?_, by simp, ?_⟩
    · exact key_mem_paths_obj.mpr ⟨v, List.mem_singleton.mpr rfl, hp1⟩
    · rw [getP_obj_key]
      rw [show lookupD [("json", v)] "json" = v from rfl]
      exact hp2
  have hfst2 : (L'.map (fun pa : Path × Json =>
      (Seg.key "json" :: pa.1, pa.2))).map Prod.fst
      = L'.map (fun pa : Path × Json => Seg.key "json" :: pa.1) := by
    rw [List.map_map]
    rfl
  have hfst3 : L'.map (fun pa : Path × Json => Seg.key "json" :: pa.1)
      = (L'.map Prod.fst).map (fun p => Seg.key "json" :: p) := by
    rw [List.map_map]
    rfl
  have hpathsperm : (L'.map Prod.fst).Perm (pathsOf v) := hperm.map Prod.fst
  have hndL : (L'.map Prod.fst).Nodup :=
    hpathsperm.nodup_iff.mpr (pathsOf_nodup v hval)
  have hnd : (([] : List Path) ++ (L'.map (fun pa : Path × Json =>
      (Seg.key "json" :: pa.1, pa.2))).map Prod.fst).Nodup := by
    rw [List.nil_append, hfst2, hfst3]
    refine List.Nodup.map ?_ hndL
    intro p q hpq
    injection hpq
  have hpre : ∀ pb ∈ L'.map (fun pa : Path × Json => (Seg.key "json" :: pa.1, pa.2)),
      ∀ r, r <+: pb.1 → r ≠ [] → r ≠ pb.1 →
      r ∈ ([] : List Path) ∨ r ∈ (L'.map (fun pa : Path × Json =>
        (Seg.key "json" :: pa.1, pa.2))).map Prod.fst := by
    intro pb hpb r hr hrne hrnep
    obtain ⟨pa, hpa, rfl⟩ := List.mem_map.mp hpb
    rcases r with _ | ⟨s, r'⟩
    · exact absurd rfl hrne
    · obtain ⟨rfl, hr'⟩ := List.cons_prefix_cons.mp hr
      have hmem1 : r' ∈ pathsOf v :=
        prefix_mem_pathsOf v (hpairsW pa hpa).1 hr'
      have hmem2 : r' ∈ L'.map Prod.fst := hpathsperm.mem_iff.mpr hmem1
      refine .inr ?_
      rw [hfst2, hfst3]
      exact List.mem_map.mpr ⟨r', hmem2, rfl⟩
  have hsorted := List.sorted_mergeSort
      (fun a b c hab hbc => pairLe_trans a b c hab hbc)
      (fun a b => pairLe_total_bool a b)
      (walkPairs v)
  have hnopre := sorted_pairs_no_prefix hsorted
  have hpair : List.Pairwise (fun a b => ¬ (b.1 <+: a.1 ∧ b.1 ≠ a.1))
      (L'.map (fun pa : Path × Json => (Seg.key "json" :: pa.1, pa.2))) := by
    refine List.Pairwise.map _ ?_ hnopre
    rintro a b hab ⟨hpre2, hne2⟩
    simp only at hpre2 hne2
    refine hab ⟨(List.cons_prefix_cons.mp hpre2).2, ?_⟩
    intro heq
    exact hne2 (by rw [heq])
  have hfold := foldIns_restrict
      (L'.map (fun pa : Path × Json => (Seg.key "json" :: pa.1, pa.2)))
      (Json.obj [("json", v)]) [] hvalv'
      (by intro q hq; cases hq)
      (by intro q hq r _ _; cases hq)
      hconds hnd hpre hpair
  rw [restrict_nil, List.nil_append] at hfold
  rw [List.foldlM_map] at hfold
  rw [hfst2] at hfold
  rw [show merge (L'.map (stmtOfPair "json"))
      = List.foldlM mergeStmt Json.null (L'.map (stmtOfPair "json")) from rfl]
  rw [merge_eq_foldIns L' Json.null hvals]
  exact hfold

/-- C1: round trip. For every valid JSON document (duplicate-free object
keys), gronning it under the root name json, sorting the statements, merging
them back and collapsing the top-level json wrapper succeeds and returns the
document up to the ordering of object entries (Eqv). -/
theorem gron_ungron_round_trip (v : Json) (hval : validJson v = true) :
    ∃ w, gronThenUngron v = .ok w ∧ Eqv w v := by
  have hmerge := merge_sorted_eq v hval
  have hperm := List.mergeSort_perm (walkPairs v)
      (fun a b => stmtLe (stmtOfPair "json" a) (stmtOfPair "json" b))
  set L' := (walkPairs v).mergeSort
      (fun a b => stmtLe (stmtOfPair "json" a) (stmtOfPair "json" b)) with hL'def
  set Sfull := L'.map (fun pa : Path × Json => Seg.key "json" :: pa.1) with hSdef
  have hpathsperm : (L'.map Prod.fst).Perm (pathsOf v) := hperm.map Prod.fst
  have hSmem : ∀ q : Path, (Seg.key "json" :: q) ∈ Sfull ↔ q ∈ pathsOf v := by
    intro q
    rw [hSdef]
    constructor
    · intro h
      obtain ⟨pa, hpa, heq⟩ := List.mem_map.mp h
      injection heq with _ htail
      rw [← htail]
      exact hpathsperm.mem_iff.mp (List.mem_map.mpr ⟨pa, hpa, rfl⟩)
    · intro h
      have h2 : q ∈ L'.map Prod.fst := hpathsperm.mem_iff.mpr h
      obtain ⟨pa, hpa, hq⟩ := List.mem_map.mp h2
      exact List.mem_map.mpr ⟨pa, hpa, by rw [hq]⟩
  have hSshape : ∀ p ∈ Sfull, ∃ q, p = Seg.key "json" :: q := by
    intro p hp
    rw [hSdef] at hp
    obtain ⟨pa, hpa, heq⟩ := List.mem_map.mp hp
    exact ⟨pa.1, heq.symm⟩
  have hSne : Sfull ≠ [] :=
    List.ne_nil_of_mem ((hSmem []).mpr (nil_mem_pathsOf v))
  have hhk : headKeys Sfull = ["json"] := by
    rw [headKeys]
    apply dedupF_const
    · refine List.ne_nil_of_mem (a := "json") ?_
      exact List.mem_filterMap.mpr
        ⟨Seg.key "json" :: [], (hSmem []).mpr (nil_mem_pathsOf v), rfl⟩
    · intro x hx
      obtain ⟨p, hp, hk⟩ := List.mem_filterMap.mp hx
      obtain ⟨q, rfl⟩ := hSshape p hp
      rw [show headKeyOf (Seg.key "json" :: q) = some "json" from rfl] at hk
      injection hk with hk
      exact hk.symm
  have hres : restrict (Json.obj [("json", v)]) Sfull
      = Json.obj [("json", restrict v (residKey "json" Sfull))] := by
    rw [restrict_obj hSne]
    rw [show ([("json", v)] : List (String × Json)).map
        (fun kv => (kv.1, restrict kv.2 (residKey kv.1 Sfull)))
        = [("json", restrict v (residKey "json" Sfull))] from rfl]
    rw [hhk]
    rw [reorder_cons]
    rw [show ([("json", restrict v (residKey "json" Sfull))] :
        List (String × Json)).lookup "json"
        = some (restrict v (residKey "json" Sfull)) from rfl]
    rfl
  have hresmem : ∀ q : Path, q ∈ residKey "json" Sfull ↔ q ∈ pathsOf v := by
    intro q
    rw [mem_residKey]
    exact hSmem q
  have hresne : residKey "json" Sfull ≠ [] :=
    List.ne_nil_of_mem ((hresmem []).mpr (nil_mem_pathsOf v))
  have heqv : Eqv (restrict v (residKey "json" Sfull)) v :=
    restrict_full v _ hval hresne (fun q _ => hresmem q)
  refine ⟨restrict v (residKey "json" Sfull), ?_, heqv⟩
  show (merge (sortStatements (statementsFromJSON [.bare "json"] v))).map collapse
    = .ok (restrict v (residKey "json" Sfull))
  rw [hmerge]
  rw [show (Except.ok (restrict (Json.obj [("json", v)]) Sfull) :
      Except UngronError Json).map collapse
      = Except.ok (collapse (restrict (Json.obj [("json", v)]) Sfull)) from rfl]
  rw [hres]
  rw [show collapse (Json.obj [("json", restrict v (residKey "json" Sfull))])
      = restrict v (residKey "json" Sfull) from rfl]

/-- Witness for C1 at a concrete document. -/
theorem gron_ungron_round_trip_witness :
    validJson (Json.obj [("a", Json.null)]) = true ∧
    ∃ w, gronThenUngron (Json.obj [("a", Json.null)]) = .ok w
      ∧ Eqv w (Json.obj [("a", Json.null)]) :=
  ⟨by decide, gron_ungron_round_trip (Json.obj [("a", Json.null)]) (by decide)⟩

end Gron
